import Mathlib

/- Verification of the pyfrost threshold-signature core (`pyfrost/crypto_utils.py`,
   `pyfrost/frost.py`) against its natural-language specification.

   Modelling conventions:
   * Python unbounded integers are `ℤ` (or `ℕ` where the source value is
     provably non-negative); Python `%` and `//` with a positive divisor agree
     with `Int.emod` / `Int.ediv`.
   * The secp256k1 curve group has prime order `Nval` and is cyclic, generated
     by the base point `G`; a curve point is represented by its discrete
     logarithm base `G`, an element of `ZMod Nval`.  Point addition is addition
     of discrete logarithms and scalar multiplication is multiplication. -/

set_option maxRecDepth 4000

/-- The order of the secp256k1 group (`N = ecurve.q` in `crypto_utils.py`). -/
def Nval : ℕ := 115792089237316195423570985008687907852837564279074904382605163141518161494337

/-- Modular exponentiation by repeated squaring with explicit fuel, used to make
    Lucas primality certificates kernel-checkable. -/
def powMod : ℕ → ℕ → ℕ → ℕ → ℕ
  | 0, _, _, m => 1 % m
  | fuel + 1, b, e, m =>
    if e = 0 then 1 % m
    else
      let r := powMod fuel (b * b % m) (e / 2) m
      if e % 2 = 1 then r * (b % m) % m else r

/-- One node of a Lucas (Pratt) primality certificate: `g` is a primitive root
    witness modulo `p` and `facs` lists the prime factorization of `p - 1`. -/
def lucasCheck (p g : ℕ) (facs : List (ℕ × ℕ)) : Bool :=
  decide (2 ≤ p) && decide (p < 2 ^ 300) &&
  (p - 1 == (facs.map (fun qe => qe.1 ^ qe.2)).prod) &&
  (powMod 300 g (p - 1) p == 1 % p) &&
  facs.all (fun qe => !(powMod 300 g ((p - 1) / qe.1) p == 1 % p))

/-- All the bases appearing in a certificate-node factor list are prime. -/
def AllPrime : List (ℕ × ℕ) → Prop
  | [] => True
  | qe :: rest => Nat.Prime qe.1 ∧ AllPrime rest

namespace pyfrost

/-- A secp256k1 curve point.  The curve group is cyclic of prime order `Nval`,
    generated by the base point; we represent a point by its discrete logarithm
    base `G`, an element of `ZMod Nval`.  `fastecdsa` point addition becomes
    addition in `ZMod Nval` and scalar multiplication becomes multiplication;
    the identity point is `0`. -/
abbrev Point := ZMod Nval

/-- The base point `ecurve.G`, i.e. the point with discrete logarithm 1. -/
def G : Point := 1

/-- `keys.get_public_key(k, ecurve)` / `private_to_point`: scalar times `G`. -/
def private_to_point (k : ℤ) : Point := (k : ZMod Nval) * G

/-- `pub_to_code`: the SEC1 compressed encoding of a point, read as a 264-bit
    integer.  The encoding is injective on curve points, so it is modelled as
    the identity on the discrete-logarithm representation. -/
def pub_to_code (P : Point) : Point := P

/-- `code_to_pub`: the inverse of `pub_to_code`. -/
def code_to_pub (c : Point) : Point := c

/-- `pub_compress` / `pub_decompress`: SEC1 compressed form as an
    `{x, y_parity}` record; again injective, modelled as the identity. -/
def pub_compress (P : Point) : Point := P

/-- `pub_decompress`, inverse of `pub_compress`. -/
def pub_decompress (c : Point) : Point := c

/-- The class `Polynomial` of `crypto_utils.py`: a threshold and a coefficient
    list (index `i` holds the coefficient of `x^i`).  Coefficients are Python
    unbounded integers: random ones are scalars in `[1, Nval)`, but a caller
    supplied `coefficient0` can be any integer. -/
structure Polynomial where
  threshold : ℕ
  coefficients : List ℤ

/-- The `Polynomial.__init__` constructor: an optional fixed `coefficient0`
    followed by freshly generated random coefficients (supplied here as the
    stream `rand`), `threshold - len(coefficients)` of them. -/
def Polynomial.make (threshold : ℕ) (coefficient0 : Option ℤ) (rand : List ℤ) : Polynomial :=
  let init : List ℤ := match coefficient0 with
    | some c => [c]
    | none => []
  { threshold := threshold, coefficients := init ++ rand.take (threshold - init.length) }

/-- The loop of `Polynomial.evaluate`: `result += coefficients[i] * pow(x, i)`,
    starting at index `i`.  No reduction mod `N` is performed. -/
def evalFrom (x : ℤ) : ℕ → List ℤ → ℤ
  | _, [] => 0
  | i, c :: rest => c * x ^ i + evalFrom x (i + 1) rest

/-- `Polynomial.evaluate(x)`: the plain integer `Σ coefficients[i] * x^i`,
    with no reduction mod `N` (the loop accumulates in order; integer addition
    is associative and commutative, so the sum below is the same value). -/
def Polynomial.evaluate (f : Polynomial) (x : ℤ) : ℤ := evalFrom x 0 f.coefficients

/-- `Polynomial.coef_pub_keys()`: each coefficient times `G`. -/
def Polynomial.coef_pub_keys (f : Polynomial) : List Point :=
  f.coefficients.map (fun c : ℤ => (c : ZMod Nval) * G)

/-- Modelled from the spec (§3, Data Model): "Evaluation at x yields
    `Σ aᵢ·xⁱ mod n`" — the specification-side value of polynomial evaluation,
    to be compared with `Polynomial.evaluate` from the source. -/
def specEvaluate (coeffs : List ℤ) (x : ℤ) : ℤ :=
  (((List.range coeffs.length).map (fun i => coeffs.getD i 0 * x ^ i)).sum).emod (Nval : ℤ)

/-- Python list indexing `l[0]`, which raises `IndexError` on an empty list. -/
def listHead {α : Type} (l : List α) : Except String α :=
  match l with
  | [] => .error "IndexError: list index out of range"
  | a :: _ => .ok a

/-- The loop of `calc_poly_point`: `result += (pow(x, i) % N) * polynomial[i]`
    from index `i` on (the additions are reassociated; point addition is
    associative and commutative). -/
def calcFrom (x : ℤ) : ℕ → List Point → Point
  | _, [] => 0
  | i, P :: rest => (((x ^ i).emod (Nval : ℤ) : ℤ) : ZMod Nval) * P + calcFrom x (i + 1) rest

/-- `calc_poly_point(polynomial, x)`: `Σ (x^i mod N) · C_i` over the commitment
    list.  On an empty list the source raises `IndexError` (`coefs[0]`). -/
def calc_poly_point (polynomial : List Point) (x : ℤ) : Except String Point :=
  match polynomial with
  | [] => .error "IndexError: list index out of range"
  | _ => .ok (calcFrom x 0 polynomial)

/- `generate_random_private()` is a random scalar; randomness is always passed
   in explicitly in this embedding, so no definition is needed for it. -/

/-- The `while number > 1` loop of `mod_inverse`, with explicit fuel.
    State: `(number, modulus, inverse, intermediate)`; one iteration is
    `(n, m, i, t) → (m, n % m, t, i - (n / m) * t)`.
    Python divides by zero (raising `ZeroDivisionError`) if `m = 0` while
    `n > 1`, which cannot happen for inputs coprime to the original modulus;
    Lean evaluates `n / 0 = 0` and `n % 0 = n` there instead. -/
def modInvLoop : ℕ → ℕ → ℕ → ℤ → ℤ → ℤ
  | 0, _, _, inverse, _ => inverse
  | fuel + 1, n, m, inverse, intermediate =>
    if 1 < n then
      modInvLoop fuel m (n % m) intermediate (inverse - (n / m : ℕ) * intermediate)
    else inverse

/-- `mod_inverse(number, modulus)` from `crypto_utils.py`: iterative extended
    Euclid returning a representative of the inverse in `[0, modulus)` for
    inputs coprime to `modulus`.  Note the source raises no error for
    `number ≡ 0`: the loop is skipped and the initial `inverse = 1` is
    returned.  The loop runs at most `modulus + 2` steps (the third state
    component strictly decreases), so the fuel never runs out. -/
def mod_inverse (number : ℤ) (modulus : ℕ) : ℤ :=
  let original_modulus := modulus
  let n : ℕ := (number.emod modulus).toNat
  if modulus = 1 then 0
  else
    let inverse := modInvLoop (modulus + 2) n modulus 1 0
    if inverse < 0 then inverse + original_modulus else inverse

/-- A share dict `{'id': ..., 'key': ...}`.  Identifiers are decimal identity
    strings; they are modelled by their integer value `int(id)`. -/
structure Share where
  id : ℕ
  key : ℤ

/-- `langrange_coef(index, threshold, shares, x)` (spelled `lagrange_coef` when
    imported by `frost.py`): the Lagrange coefficient
    `Π_{k ≠ index} (x - x_k) · (x_index - x_k)⁻¹` computed as
    `mod_inverse(denum, N) * num` over the plain integers, not reduced mod `N`.
    Only the `id` fields of the share dicts are used, so the embedding takes
    the identifier list. -/
def langrange_coef (index threshold : ℕ) (ids : List ℕ) (x : ℤ) : ℤ :=
  let x_j : ℤ := (ids.getD index 0 : ℕ)
  let ks := (List.range threshold).filter (fun k => k ≠ index)
  let num := (ks.map (fun k => x - (ids.getD k 0 : ℕ))).prod
  let denum := (ks.map (fun k => x_j - (ids.getD k 0 : ℕ))).prod
  mod_inverse denum Nval * num

/-- `reconstruct_share(shares, threshold, x)`:
    `sum = (sum + (key_j * coef_j % N)) % N` over `j < threshold`, then
    `sum % N`.  The source first asserts `len(shares) == threshold`. -/
def reconstruct_share (shares : List Share) (threshold : ℕ) (x : ℤ) : Except String ℤ :=
  if shares.length = threshold then
    let ids := shares.map (fun s => s.id)
    let total := (List.range threshold).foldl
      (fun sum j =>
        (sum + ((shares.getD j ⟨0, 0⟩).key * langrange_coef j threshold ids x).emod (Nval : ℤ)).emod (Nval : ℤ))
      0
    .ok (total.emod (Nval : ℤ))
  else .error "AssertionError: Number of shares must be t."

/-- A commitment entry of a signing `nonces_dict`:
    `{'id': ..., 'public_nonce_d': ..., 'public_nonce_e': ...}` (the public
    nonces are SEC1 codes, here points, cf. `pub_to_code`). -/
structure Nonce where
  id : ℕ
  public_nonce_d : Point
  public_nonce_e : Point

/-- The ambient hash functions and address derivation.  `sha256`, `keccak256`
    and the Ethereum address map have no arithmetic structure the code relies
    on; they are parameters of the embedding, so every theorem below holds for
    every choice of them.
    * `schnorr_hash P m`  models `int(Web3.keccak(addr(P) ∥ hex(m)))`;
    * `sha_pop id dkg_id c1 c2` models the two round-1 proof-of-possession
      hashes `sha256(id ∥ dkg_id ∥ c1.to_bytes(33) ∥ c2.to_bytes(33))`;
    * `row id msg nonces` models the binding factor
      `sha256(id.to_bytes(32) ∥ msg ∥ sha256(json(nonces)))`;
    * `eth_challenge Y msg R` models the ETH-profile challenge
      `keccak(addr(R) ∥ ...)` of `eth_utils.py`;
    * `addr P` models `pub_to_addr(P)`, the 20-byte Ethereum address. -/
structure Env where
  schnorr_hash : Point → ℕ → ℕ
  sha_pop : ℕ → String → Point → Point → ℕ
  row : ℕ → String → List Nonce → ℕ
  eth_challenge : Point → String → Point → ℕ
  addr : Point → ℕ

/-- A Schnorr signature dict `{'s': ..., 'e': ...}`.  `stringify_signature` and
    `split_signature` are mutually inverse hex serialisations of this record
    and are modelled as the identity. -/
structure Sig where
  s : ℤ
  e : ℕ

/-- `schnorr_sign(x, r, R, m)`: `e = H(R, m)`, `s = (r - e·x) mod N`. -/
def schnorr_sign (env : Env) (shared_private_key nounce_private : ℤ)
    (nounce_public : Point) (message : ℕ) : Sig :=
  let e := env.schnorr_hash nounce_public message
  { s := (nounce_private - (e : ℤ) * shared_private_key).emod (Nval : ℤ), e := e }

/-- `schnorr_verify(P, m, sig)`: asserts `s < N`, recomputes
    `r_v = s·G + e·P` and checks `H(r_v, m) == e`. -/
def schnorr_verify (env : Env) (public_key : Point) (message : ℕ) (signature : Sig) :
    Except String Bool :=
  if signature.s < (Nval : ℤ) then
    let r_v := (signature.s : ZMod Nval) * G + (signature.e : ZMod Nval) * public_key
    let e_v := env.schnorr_hash r_v message
    .ok (e_v == signature.e)
  else .error "AssertionError: Signature must be reduced modulo N"

/-- Left-to-right effectful map over a list in the `Except` monad, stopping at
    the first error: the evaluation order of every Python `for` loop below. -/
def mapE {α β : Type} (f : α → Except String β) : List α → Except String (List β)
  | [] => .ok []
  | a :: rest => do
    let b ← f a
    let bs ← mapE f rest
    pure (b :: bs)

/-- Effectful iteration discarding results (a `for` loop run for its checks). -/
def forE {α β : Type} (f : α → Except String β) (l : List α) : Except String Unit :=
  (mapE f l).map (fun _ => ())

/-- Python dynamic attribute access `self.attr`: raises `AttributeError` when
    the attribute has not been assigned yet. -/
def attr {α : Type} (o : Option α) : Except String α :=
  match o with
  | some a => .ok a
  | none => .error "AttributeError"

/-- Python dict lookup `d[k]`, raising `KeyError` when absent.  Dicts keyed by
    identifier are modelled as association lists in insertion order; the
    protocol only ever inserts distinct keys. -/
def dictGet {α : Type} (d : List (ℕ × α)) (k : ℕ) : Except String α :=
  match d with
  | [] => .error "KeyError"
  | (k', a) :: rest => if k' = k then .ok a else dictGet rest k

/-- The payload `{'receiver_id': ..., 'f': ...}` of a round-2 targeted share. -/
structure SharePayload where
  receiver_id : ℕ
  f : ℤ

/-- A Fernet ciphertext under a derived pairwise key.  The key-derivation chain
    `generate_hkdf_key(pub_to_code(sk_i · Pk_j))` is deterministic and
    injective on joint points (a SEC1 code always has 78 decimal digits, so the
    derivation never raises; see `generate_hkdf_key` below for the byte-level
    model of that function), so the symmetric key is modelled by the joint
    point itself. -/
structure Encrypted where
  key : Point
  payload : SharePayload

/-- `encrypt(data, key)`: authenticated encryption of the JSON payload. -/
def encrypt (payload : SharePayload) (key : Point) : Encrypted :=
  { key := key, payload := payload }

/-- `decrypt(data, key)`: authenticated decryption; a wrong key makes the
    Fernet HMAC check fail. -/
def decrypt (c : Encrypted) (key : Point) : Except String SharePayload :=
  if c.key = key then .ok c.payload else .error "InvalidToken"

/-- A round-1 broadcast (the dict returned by `KeyGen.round1`).  Public keys
    travel as SEC1 codes (`pub_to_code`), signatures as their
    `stringify_signature` strings; both serialisations are injective and
    modelled by the underlying values. -/
structure R1Data where
  sender_id : ℕ
  public_fx : List Point
  coef0_nonce_pub : Point
  coef0_sig : Sig
  public_key : Point
  secret_nonce_pub : Point
  secret_sig : Sig
  key_type : String

/-- A round-2 point-to-point message. -/
structure R2Msg where
  receiver_id : ℕ
  sender_id : ℕ
  data : Encrypted

/-- The `dkg_key_pair` attribute set by `KeyGen.round3`. -/
structure DkgKeyPair where
  share : ℤ
  dkg_public_key : Point

/-- The result dict returned by a successful `KeyGen.round3`. -/
structure R3Result where
  dkg_public_key : Point
  public_share : Point
  dkg_key_pair : DkgKeyPair
  key_type : String
  status : String

/-- The state of a `KeyGen` session object.  Python assigns the later
    attributes dynamically in the round methods, so they are `Option`-valued
    here (`none` = not yet assigned, and reading raises `AttributeError`).
    `malicious` stores dicts `{'id': ..., 'complaint': ...}`; only the `id`
    field is ever read, so the embedding keeps just the identifiers. -/
structure KeyGen where
  dkg_id : String
  threshold : ℕ
  node_id : ℕ
  partners : List ℕ
  coefficient0 : Option ℤ
  key_type : String
  malicious : List ℕ
  status : String
  secret_key : Option ℤ
  fx : Option Polynomial
  public_fx : Option (List Point)
  round1_broadcasted_data : Option (List R1Data)
  partners_public_keys : Option (List (ℕ × Point))
  dkg_key_pair : Option DkgKeyPair

/-- `KeyGen.__init__`. -/
def KeyGen.init (dkg_id : String) (threshold : ℕ) (node_id : ℕ) (partners : List ℕ)
    (coefficient0 : Option ℤ) (key_type : String) : KeyGen :=
  { dkg_id := dkg_id, threshold := threshold, node_id := node_id,
    partners := partners, coefficient0 := coefficient0, key_type := key_type,
    malicious := [], status := "STARTED",
    secret_key := none, fx := none, public_fx := none,
    round1_broadcasted_data := none, partners_public_keys := none,
    dkg_key_pair := none }

/-- `KeyGen.round1()`.  The fresh randomness drawn by `keys.gen_keypair` and
    `Polynomial.__init__` is passed in explicitly: the session authentication
    key, the two proof-of-possession nonces and the random coefficient tail.
    Reading `coefficients[0]` of an empty polynomial raises `IndexError`. -/
def KeyGen.round1 (env : Env) (st : KeyGen) (secret_key secret_nonce coef0_nonce : ℤ)
    (rand_coeffs : List ℤ) : Except String (KeyGen × R1Data) := do
  let public_key := (secret_key : ZMod Nval) * G
  let public_nonce := (secret_nonce : ZMod Nval) * G
  let secret_pop_hash := env.sha_pop st.node_id st.dkg_id (pub_to_code public_key)
    (pub_to_code public_nonce)
  let secret_pop_sign := schnorr_sign env secret_key secret_nonce public_nonce secret_pop_hash
  let fx := Polynomial.make st.threshold st.coefficient0 rand_coeffs
  let public_fx := fx.coef_pub_keys
  let public_coef0_nonce := (coef0_nonce : ZMod Nval) * G
  let fx0 ← listHead fx.coefficients
  let pfx0 ← listHead public_fx
  let coef0_pop_hash := env.sha_pop st.node_id st.dkg_id (pub_to_code pfx0)
    (pub_to_code public_coef0_nonce)
  let coef0_pop_sign := schnorr_sign env fx0 coef0_nonce public_coef0_nonce coef0_pop_hash
  let st' := { st with
    secret_key := some secret_key,
    fx := some fx,
    public_fx := some public_fx,
    status := "ROUND1" }
  let bc : R1Data := {
    sender_id := st.node_id,
    public_fx := public_fx.map pub_to_code,
    coef0_nonce_pub := pub_to_code public_coef0_nonce,
    coef0_sig := coef0_pop_sign,
    public_key := pub_to_code public_key,
    secret_nonce_pub := pub_to_code public_nonce,
    secret_sig := secret_pop_sign,
    key_type := st.key_type }
  pure (st', bc)

/-- The two proof-of-possession verifications `KeyGen.round2` runs for one
    received broadcast; returns `false` when the sender must be marked
    malicious (`not secret_verification or not coef0_verification`). -/
def verifySender (env : Env) (dkg_id : String) (data : R1Data) : Except String Bool := do
  let c0 ← listHead data.public_fx
  let coef0_pop_hash := env.sha_pop data.sender_id dkg_id c0 data.coef0_nonce_pub
  let coef0_verification ← schnorr_verify env (code_to_pub c0) coef0_pop_hash data.coef0_sig
  let secret_pop_hash := env.sha_pop data.sender_id dkg_id data.public_key data.secret_nonce_pub
  let secret_verification ← schnorr_verify env (code_to_pub data.public_key)
    secret_pop_hash data.secret_sig
  pure (secret_verification && coef0_verification)

/-- The body of the final loop of `KeyGen.round2`: build the encrypted share
    message for one qualified partner. -/
def round2Item (st : KeyGen) (secret_key : ℤ) (fx : Polynomial)
    (partners_public_keys : List (ℕ × Point)) (id : ℕ) : Except String R2Msg := do
  let pk ← dictGet partners_public_keys id
  let joint := pub_to_code ((secret_key : ZMod Nval) * code_to_pub pk)
  pure { receiver_id := id, sender_id := st.node_id, data := encrypt { receiver_id := id, f := fx.evaluate (id : ℤ) } joint }

/-- `KeyGen.round2(round1_broadcasted_data)`.  Broadcasts from the node itself
    are skipped; every other sender's two PoPs are verified, failures are added
    to `malicious` and removed from `qualified` (`list.remove`, modelled as a
    filter: identifiers are distinct in every honest session); each remaining
    partner receives the encrypted share `f_i(int(id))` under the derived
    pairwise key. -/
def KeyGen.round2 (env : Env) (st : KeyGen) (bl : List R1Data) :
    Except String (KeyGen × List R2Msg) := do
  let fx ← attr st.fx
  let secret_key ← attr st.secret_key
  let others := bl.filter (fun d => d.sender_id ≠ st.node_id)
  let checks ← mapE (fun d => (verifySender env st.dkg_id d).map (fun ok => (d, ok))) others
  let malicious := st.malicious ++ (checks.filter (fun c => !c.2)).map (fun c => c.1.sender_id)
  let partners_public_keys := others.map (fun d => (d.sender_id, d.public_key))
  let qualified := st.partners.filter (fun id => !(malicious.contains id))
  let result ← mapE (round2Item st secret_key fx partners_public_keys) qualified
  let st' := { st with
    round1_broadcasted_data := some bl,
    partners_public_keys := some partners_public_keys,
    malicious := malicious,
    status := "ROUND2" }
  pure (st', result)

/-- The body of the receiving loop of `KeyGen.round3`: decrypt one targeted
    message and Feldman-check it against the sender's round-1 commitments.
    A failed check reaches `self.complain(...)`, which raises
    `AttributeError` (see `KeyGen.round3`). -/
def round3Item (st : KeyGen) (secret_key : ℤ) (partners_public_keys : List (ℕ × Point))
    (bl : List R1Data) (m : R2Msg) : Except String SharePayload := do
  let spk ← dictGet partners_public_keys m.sender_id
  let joint := pub_to_code ((secret_key : ZMod Nval) * code_to_pub spk)
  if m.receiver_id = st.node_id then do
    let data ← decrypt m.data joint
    forE (fun d => do
      let point1 ← calc_poly_point (d.public_fx.map code_to_pub) (st.node_id : ℤ)
      let point2 := (data.f : ZMod Nval) * G
      if point1 ≠ point2 then
        .error "AttributeError: KeyGen object has no attribute complain"
      else pure ()) (bl.filter (fun d => d.sender_id = m.sender_id))
    pure data
  else .error "AssertionError: receiver_id does not match."

/-- `KeyGen.round3(round2_encrypted_data)`.  For each incoming message the
    share is decrypted and Feldman-checked against the sender's public
    commitments.  On a failed check the source calls `self.complain(...)`,
    but the class `KeyGen` defines no attribute `complain` (the helper
    `__create_complaint` exists at module level and is never referenced), so
    Python raises `AttributeError` there; consequently the
    `{status: COMPLAINT}` branch below the loop is unreachable.  On the happy
    path the share fragments are summed (no reduction mod `N`) and the group
    key is the sum of all constant-term commitments. -/
def KeyGen.round3 (env : Env) (st : KeyGen) (msgs : List R2Msg) :
    Except String (KeyGen × R3Result) := do
  let secret_key ← attr st.secret_key
  let partners_public_keys ← attr st.partners_public_keys
  let bl ← attr st.round1_broadcasted_data
  let round2_data ← mapE (round3Item st secret_key partners_public_keys bl) msgs
  let fx ← attr st.fx
  let my_fragment := fx.evaluate (st.node_id : ℤ)
  let share_fragments := my_fragment :: round2_data.map (fun d => d.f)
  let pfx ← attr st.public_fx
  let own0 ← listHead pfx
  let others0 ← mapE (fun d => (listHead d.public_fx).map code_to_pub)
    (bl.filter (fun d => st.partners.contains d.sender_id))
  let dkg_public_key := others0.foldl (fun acc P => acc + P) own0
  let share := share_fragments.sum
  let pair : DkgKeyPair := { share := share, dkg_public_key := pub_to_code dkg_public_key }
  let result : R3Result := { dkg_public_key := pub_to_code dkg_public_key, public_share := pub_to_code ((share : ZMod Nval) * G), dkg_key_pair := pair, key_type := st.key_type, status := "SUCCESSFUL" }
  pure ({ st with dkg_key_pair := some pair, status := "COMPLETED" }, result)

/-- The result dict of `single_sign`. -/
structure SignResult where
  id : ℕ
  signature : ℤ
  public_key : Point
  aggregated_public_nonce : Point
  key_type : String

/-- `eth_generate_signature_share(share, coef, challenge, nonce_d, nonce_e, row)`.
    Modelled from the spec: `pyfrost/eth_utils.py` is imported by `frost.py`
    but is not among the sources; §4.4 of the specification defines the ETH
    signature share as `zᵢ = ρᵢ·eᵢ + dᵢ − λᵢ·c·shareᵢ mod n`. -/
def eth_generate_signature_share (share coef : ℤ) (challenge : ℕ)
    (nonce_d nonce_e : ℤ) (row : ℕ) : ℤ :=
  ((row : ℤ) * nonce_e + nonce_d - coef * (challenge : ℤ) * share).emod (Nval : ℤ)

/-- One iteration of the nonce loop of `single_sign`: fold the aggregated
    public nonce `Dₖ + ρₖ·Eₖ` and record the binding factor and index of the
    entry whose `id` matches the signer.  The accumulator is
    `(aggregated, my_row, index, idx)`. -/
def signFoldStep (env : Env) (message : String) (nonces_list : List Nonce) (id : ℕ)
    (acc : Option Point × ℕ × ℕ × ℕ) (nonce : Nonce) : Option Point × ℕ × ℕ × ℕ :=
  let row := env.row nonce.id message nonces_list
  let public_nonce := code_to_pub nonce.public_nonce_d
    + (row : ZMod Nval) * code_to_pub nonce.public_nonce_e
  let aggregated' := match acc.1 with
    | none => some public_nonce
    | some P => some (P + public_nonce)
  if id = nonce.id then (aggregated', row, acc.2.2.2, acc.2.2.2 + 1)
  else (aggregated', acc.2.1, acc.2.2.1, acc.2.2.2 + 1)

/-- `single_sign(id, share, nonce_d, nonce_e, message, nonces_dict, group_key)`
    for the ETH profile.  `nonces_dict` is passed as its (insertion-ordered)
    value list.  The loop folds the aggregated public nonce
    `Σ (Dₖ + ρₖ·Eₖ)` (initialised to `None`, an error for an empty dict, where
    the source would hash `None`), and records the binding factor and index of
    the entry whose `id` matches the signer (last match wins, initial
    `(0, 0)`).  The two on-curve assertions always hold in the group model.
    The challenge and the share formula come from `eth_utils.py`
    (`eth_challenge` is an `Env` parameter; see
    `eth_generate_signature_share`). -/
def single_sign (env : Env) (id : ℕ) (share nonce_d nonce_e : ℤ) (message : String)
    (nonces_list : List Nonce) (group_key : Point) (key_type : String) :
    Except String SignResult := do
  let folded := nonces_list.foldl (signFoldStep env message nonces_list id) (none, 0, 0, 0)
  match folded.1 with
  | none => .error "TypeError: cannot hash None aggregated nonce"
  | some aggregated_public_nonce => do
    let my_row := folded.2.1
    let index := folded.2.2.1
    let group_key_pub := pub_compress (code_to_pub group_key)
    if key_type = "ETH" then
      let challenge := env.eth_challenge group_key_pub message aggregated_public_nonce
      let coef := langrange_coef index nonces_list.length (nonces_list.map (fun n => n.id)) 0
      let signature_share := eth_generate_signature_share share coef challenge
        nonce_d nonce_e my_row
      pure { id := id, signature := signature_share, public_key := pub_to_code ((share : ZMod Nval) * G), aggregated_public_nonce := pub_to_code aggregated_public_nonce, key_type := key_type }
    else .error "BTC profile not modelled: btc_utils.py is not among the sources"

/-- The `Key` class: a completed DKG key pair bound to a node. -/
structure Key where
  dkg_key_pair : DkgKeyPair
  node_id : ℕ
  key_type : String

/-- `Key.sign(nonces_dict, message, nonce_pair)`: asserts the message is a
    string (statically true here) and delegates to `single_sign`. -/
def Key.sign (env : Env) (k : Key) (nonces_list : List Nonce) (message : String)
    (nonce_d nonce_e : ℤ) : Except String SignResult :=
  single_sign env k.node_id k.dkg_key_pair.share nonce_d nonce_e message nonces_list
    (pub_to_code k.dkg_key_pair.dkg_public_key) k.key_type

/-- `create_nonces(node_id, n)`: fresh nonce pairs (randomness passed in) and
    their published commitments. -/
def create_nonces (node_id : ℕ) (rands : List (ℤ × ℤ)) : List Nonce × List (ℤ × ℤ) :=
  (rands.map (fun de =>
    { id := node_id,
      public_nonce_d := pub_to_code ((de.1 : ZMod Nval) * G),
      public_nonce_e := pub_to_code ((de.2 : ZMod Nval) * G) }), rands)

/-- `aggregate_nonce(message, nonces_dict)`: `Σ (Dₖ + ρₖ·Eₖ)`, `None` (here an
    error) for an empty dict. -/
def aggregate_nonce (env : Env) (message : String) (nonces_list : List Nonce) :
    Except String Point :=
  let folded := nonces_list.foldl
    (fun (acc : Option Point) nonce =>
      let row := env.row nonce.id message nonces_list
      let public_nonce := code_to_pub nonce.public_nonce_d
        + (row : ZMod Nval) * code_to_pub nonce.public_nonce_e
      match acc with
      | none => some public_nonce
      | some P => some (P + public_nonce))
    none
  match folded with
  | none => .error "TypeError: aggregated nonce is None"
  | some P => .ok P

/-- The aggregated group signature dict built by `aggregate_signatures`. -/
structure GroupSig where
  nonce : ℕ
  public_nonce : Point
  public_key : Point
  signature : ℤ
  message : String
  key_type : String

/-- `aggregate_signatures(message, single_signatures, aggregated_public_nonce,
    group_key, key_type)`: `z = Σ zᵢ mod N` plus the public data. -/
def aggregate_signatures (env : Env) (message : String)
    (single_signatures : List SignResult) (aggregated_public_nonce : Point)
    (group_key : Point) (key_type : String) : GroupSig :=
  { nonce := env.addr aggregated_public_nonce,
    public_nonce := pub_compress aggregated_public_nonce,
    public_key := pub_compress (code_to_pub group_key),
    signature := ((single_signatures.map (fun (s : SignResult) => s.signature)).sum).emod (Nval : ℤ),
    message := message, key_type := key_type }

/-- `eth_verify_group_sign(group_pub_key, message, aggregated_signature)`.
    Modelled from the spec: `pyfrost/eth_utils.py` is not among the sources;
    §4.4 specifies group verification as standard Schnorr verification against
    the group key with the keccak challenge over the address of `R`: recompute
    `c` from the signature's nonce point, then check that `z·G + c·Y` hits the
    address stored in the signature. -/
def eth_verify_group_sign (env : Env) (group_pub_key : Point) (message : String)
    (sig : GroupSig) : Bool :=
  let R := pub_decompress sig.public_nonce
  let challenge := env.eth_challenge group_pub_key message R
  let r_v := (sig.signature : ZMod Nval) * G + (challenge : ZMod Nval) * pub_decompress group_pub_key
  env.addr r_v == sig.nonce

/-- `verify_group_signature(aggregated_signature)`: dispatch on the profile
    tag (the BTC branch needs `btc_utils.py`, which is not among the sources;
    no claim exercises it). -/
def verify_group_signature (env : Env) (sig : GroupSig) : Except String Bool :=
  if sig.key_type = "ETH" then
    .ok (eth_verify_group_sign env sig.public_key sig.message sig)
  else .error "BTC profile not modelled: btc_utils.py is not among the sources"

/-- Little-endian decimal digits with explicit fuel (`fuel ≥ n` suffices:
    `n / 10 < n` for `n ≠ 0`). -/
def decDigitsAux : ℕ → ℕ → List ℕ
  | 0, _ => []
  | _ + 1, 0 => []
  | fuel + 1, n => n % 10 :: decDigitsAux fuel (n / 10)

/-- The decimal digit string `str(key)` of a non-negative integer, most
    significant digit first. -/
def decimalDigits (key : ℕ) : List ℕ :=
  if key = 0 then [0] else (decDigitsAux key key).reverse

/-- `bytes.fromhex` applied to a string of (decimal) digit characters: every
    decimal digit is a valid hex digit, so this fails (`ValueError`) exactly
    when the digit count is odd; otherwise consecutive digit pairs become
    bytes. -/
def bytesFromHexDigits : List ℕ → Option (List ℕ)
  | [] => some []
  | [_] => none
  | d0 :: d1 :: rest => (bytesFromHexDigits rest).map (fun bs => (16 * d0 + d1) :: bs)

/-- `generate_hkdf_key(key)`: feeds `bytes.fromhex(str(key))` into
    HKDF-SHA256 with empty salt and info and a 32-byte output.  The HKDF
    `derive` itself is an external primitive with no structure the code relies
    on; it is a parameter returning 32 bytes by construction.  The result is
    `none` exactly when `bytes.fromhex` raises `ValueError`. -/
def generate_hkdf_key (derive : List ℕ → { l : List ℕ // l.length = 32 }) (key : ℕ) :
    Option { l : List ℕ // l.length = 32 } :=
  (bytesFromHexDigits (decimalDigits key)).map derive

/-- A trivial environment instantiation (all hash functions constantly 0),
    used to evaluate the embedding on concrete inputs. -/
def env0 : Env :=
  { schnorr_hash := fun _ _ => 0, sha_pop := fun _ _ _ _ => 0,
    row := fun _ _ _ => 0, eth_challenge := fun _ _ _ => 0, addr := fun _ => 0 }

/-- A concrete post-round-2 session state of a single-node session, used to
    evaluate `round3` on concrete inputs. -/
def st0 : KeyGen :=
  { dkg_id := "d", threshold := 1, node_id := 1, partners := [],
    coefficient0 := none, key_type := "ETH", malicious := [], status := "ROUND2",
    secret_key := some 5, fx := some (Polynomial.mk 1 [7]),
    public_fx := some [((7 : ℤ) : ZMod Nval) * G],
    round1_broadcasted_data := some [], partners_public_keys := some [],
    dkg_key_pair := none }

/-- A concrete one-party DKG session driven through round1, round2, round3 and
    then round3 a second time after the COMPLETED state was reached. -/
def c7run : Except String (KeyGen × R3Result × KeyGen × R3Result) := do
  let (st1, bc) ← KeyGen.round1 env0 (KeyGen.init "d" 1 1 [] (some 1) "ETH") 5 6 7 []
  let (st2, _) ← KeyGen.round2 env0 st1 [bc]
  let (st3, r1) ← KeyGen.round3 env0 st2 []
  let (st4, r2) ← KeyGen.round3 env0 st3 []
  pure (st3, r1, st4, r2)

/-- A round-1 broadcast of a (malicious) sender `2` committing to the
    polynomial with the single coefficient 1. -/
def bc9 : R1Data :=
  { sender_id := 2, public_fx := [((1 : ℤ) : ZMod Nval) * G],
    coef0_nonce_pub := G, coef0_sig := ⟨0, 0⟩,
    public_key := ((3 : ℤ) : ZMod Nval) * G,
    secret_nonce_pub := G, secret_sig := ⟨0, 0⟩, key_type := "ETH" }

/-- A receiver-1 session state after round 2 with sender 2 registered. -/
def st9 : KeyGen :=
  { dkg_id := "d", threshold := 1, node_id := 1, partners := [2],
    coefficient0 := none, key_type := "ETH", malicious := [], status := "ROUND2",
    secret_key := some 5, fx := some (Polynomial.mk 1 [7]),
    public_fx := some [((7 : ℤ) : ZMod Nval) * G],
    round1_broadcasted_data := some [bc9],
    partners_public_keys := some [(2, ((3 : ℤ) : ZMod Nval) * G)],
    dkg_key_pair := none }

/-- A targeted share message from sender 2 to receiver 1 carrying `f = 2`,
    which fails the Feldman check against `bc9` (whose commitment is `1·G`);
    it is encrypted under the correct pairwise key `5 · (3·G)`. -/
def m9 : R2Msg :=
  { receiver_id := 1, sender_id := 2,
    data := { key := ((15 : ℤ) : ZMod Nval) * G, payload := { receiver_id := 1, f := 2 } } }

/-- One DKG participant with all the randomness its rounds draw. -/
structure Participant where
  id : ℕ
  secret_key : ℤ
  secret_nonce : ℤ
  coef0_nonce : ℤ
  rand_coeffs : List ℤ

/-- The proof-of-possession signature produced in `round1` for a secret `x`
    with nonce `r`: sign the `sha_pop` hash of the two public codes. -/
def popSig (env : Env) (dkg_id : String) (sender : ℕ) (x r : ℤ) : Sig :=
  schnorr_sign env x r ((r : ZMod Nval) * G)
    (env.sha_pop sender dkg_id (pub_to_code ((x : ZMod Nval) * G))
      (pub_to_code ((r : ZMod Nval) * G)))

/-- The DKG polynomial of a participant. -/
def thePoly (T : ℕ) (c0 : Option ℤ) (p : Participant) : Polynomial :=
  Polynomial.make T c0 p.rand_coeffs

/-- The round-1 broadcast of an honest participant. -/
def r1bc (env : Env) (dkg_id : String) (T : ℕ) (c0 : Option ℤ) (p : Participant) : R1Data :=
  { sender_id := p.id,
    public_fx := (thePoly T c0 p).coef_pub_keys.map pub_to_code,
    coef0_nonce_pub := pub_to_code ((p.coef0_nonce : ZMod Nval) * G),
    coef0_sig := popSig env dkg_id p.id (thePoly T c0 p).coefficients.headI p.coef0_nonce,
    public_key := pub_to_code ((p.secret_key : ZMod Nval) * G),
    secret_nonce_pub := pub_to_code ((p.secret_nonce : ZMod Nval) * G),
    secret_sig := popSig env dkg_id p.id p.secret_key p.secret_nonce,
    key_type := "ETH" }

/-- The session state of an honest participant after `round1`. -/
def r1st (dkg_id : String) (T : ℕ) (c0 : Option ℤ) (ids : List ℕ) (p : Participant) : KeyGen :=
  { KeyGen.init dkg_id T p.id (ids.filter (fun i => i ≠ p.id)) c0 "ETH" with
    secret_key := some p.secret_key,
    fx := some (thePoly T c0 p),
    public_fx := some (thePoly T c0 p).coef_pub_keys,
    status := "ROUND1" }

/-- The encrypted targeted share sent from `p` to `q` in `round2`. -/
def r2msg (T : ℕ) (c0 : Option ℤ) (p q : Participant) : R2Msg :=
  { receiver_id := q.id, sender_id := p.id,
    data := encrypt { receiver_id := q.id, f := (thePoly T c0 p).evaluate (q.id : ℤ) }
      ((p.secret_key : ZMod Nval) * ((q.secret_key : ZMod Nval) * G)) }

/-- The session state of an honest participant after `round2`. -/
def r2st (env : Env) (dkg_id : String) (T : ℕ) (c0 : Option ℤ) (ids : List ℕ)
    (parts : List Participant) (p : Participant) : KeyGen :=
  { r1st dkg_id T c0 ids p with
    round1_broadcasted_data := some (parts.map (r1bc env dkg_id T c0)),
    partners_public_keys := some ((parts.filter (fun q => q.id ≠ p.id)).map
      (fun q => (q.id, pub_to_code ((q.secret_key : ZMod Nval) * G)))),
    status := "ROUND2" }

/-- The group key of an honest DKG: the sum of all constant-term commitments. -/
def dkgY (T : ℕ) (c0 : Option ℤ) (parts : List Participant) : Point :=
  (((parts.map (fun q => (thePoly T c0 q).coefficients.headI)).sum : ℤ) : ZMod Nval) * G

/-- The secret share of an honest participant after the DKG: the unreduced sum
    of its own evaluation and all received share fragments. -/
def dkgShare (T : ℕ) (c0 : Option ℤ) (parts : List Participant) (p : Participant) : ℤ :=
  (thePoly T c0 p).evaluate (p.id : ℤ)
    + ((parts.filter (fun q => q.id ≠ p.id)).map
        (fun q => (thePoly T c0 q).evaluate (p.id : ℤ))).sum

/-- A published signing commitment entry for one fresh nonce pair: exactly the
    dict entry `create_nonces` emits for one `(d, e)` pair of participant `q`. -/
def signNonce (d e : Participant → ℤ) (q : Participant) : Nonce :=
  { id := q.id,
    public_nonce_d := pub_to_code ((d q : ZMod Nval) * G),
    public_nonce_e := pub_to_code ((e q : ZMod Nval) * G) }

/-- One entry's contribution `Dₖ + ρₖ·Eₖ` to the aggregated public nonce (the
    loop body shared by `single_sign` and `aggregate_nonce`). -/
def nonceContrib (env : Env) (message : String) (nl : List Nonce) (n : Nonce) : Point :=
  code_to_pub n.public_nonce_d
    + ((env.row n.id message nl : ℕ) : ZMod Nval) * code_to_pub n.public_nonce_e

/-- A concrete two-participant instance for an honest DKG run. -/
def c2parts : List Participant := [⟨1, 3, 4, 5, [6, 7]⟩, ⟨2, 8, 9, 10, [11, 12]⟩]

/-- The final session state of an honest participant after `round3`. -/
def r3st (env : Env) (dkg_id : String) (T : ℕ) (c0 : Option ℤ) (ids : List ℕ)
    (parts : List Participant) (p : Participant) : KeyGen :=
  { r2st env dkg_id T c0 ids parts p with
    dkg_key_pair := some { share := dkgShare T c0 parts p,
                           dkg_public_key := pub_to_code (dkgY T c0 parts) },
    status := "COMPLETED" }

/-- The round-3 result dict of an honest participant. -/
def r3res (T : ℕ) (c0 : Option ℤ) (parts : List Participant) (p : Participant) : R3Result :=
  { dkg_public_key := pub_to_code (dkgY T c0 parts),
    public_share := pub_to_code ((dkgShare T c0 parts p : ZMod Nval) * G),
    dkg_key_pair := { share := dkgShare T c0 parts p,
                      dkg_public_key := pub_to_code (dkgY T c0 parts) },
    key_type := "ETH",
    status := "SUCCESSFUL" }

/-- An honest full DKG among `parts`, mirroring the orchestration of
    `tests/test_keygen.py`: every participant runs `round1`; every participant
    runs `round2` on the full broadcast list; the targeted messages are routed
    to their receivers; every participant runs `round3` on its inbox.  Returns
    the final session states and round-3 results, in participant order. -/
def runDKG (env : Env) (dkg_id : String) (threshold : ℕ) (coefficient0 : Option ℤ)
    (parts : List Participant) : Except String (List (KeyGen × R3Result)) := do
  let ids := parts.map (fun p => p.id)
  let sessions := parts.map (fun p =>
    (p, KeyGen.init dkg_id threshold p.id (ids.filter (fun i => i ≠ p.id)) coefficient0 "ETH"))
  let r1 ← mapE (fun ps => do
    let (st1, bc) ← KeyGen.round1 env ps.2 ps.1.secret_key ps.1.secret_nonce
      ps.1.coef0_nonce ps.1.rand_coeffs
    pure (ps.1, st1, bc)) sessions
  let broadcasts := r1.map (fun x => x.2.2)
  let r2 ← mapE (fun x => do
    let (st2, out) ← KeyGen.round2 env x.2.1 broadcasts
    pure (x.1, st2, out)) r1
  let allMsgs := (r2.map (fun x => x.2.2)).flatten
  mapE (fun x =>
    KeyGen.round3 env x.2.1 (allMsgs.filter (fun m => m.receiver_id = x.2.1.node_id))) r2

end pyfrost

theorem powMod_correct : ∀ (fuel e : ℕ), e < 2 ^ fuel → ∀ (b m : ℕ), 0 < m →
    powMod fuel b e m = b ^ e % m := by
  intro fuel
  induction fuel with
  | zero =>
    intro e he b m _
    interval_cases e
    simp [powMod]
  | succ n ih =>
    intro e he b m hm
    by_cases h0 : e = 0
    · simp [powMod, h0]
    · have hdiv : e / 2 < 2 ^ n := by
        have h2 : e < 2 ^ n * 2 := by
          simpa [pow_succ] using he
        omega
      have hrec := ih (e / 2) hdiv (b * b % m) m hm
      have hsplit : b ^ e = (b * b) ^ (e / 2) * b ^ (e % 2) := by
        conv_lhs => rw [← Nat.div_add_mod e 2]
        rw [pow_add, pow_mul]
        ring_nf
      have hb2 : (b * b % m) ^ (e / 2) % m = (b * b) ^ (e / 2) % m := by
        rw [Nat.pow_mod, Nat.mod_mod_of_dvd _ (dvd_refl m)]
        rw [← Nat.pow_mod]
      rcases Nat.mod_two_eq_zero_or_one e with hpar | hpar
      · have hne : ¬ e % 2 = 1 := by omega
        simp only [powMod, h0, if_false, hne, if_neg]
        rw [hrec, hb2, hsplit, hpar, pow_zero, mul_one]
      · simp only [powMod, h0, if_false, hpar, if_true]
        rw [hrec, hb2, hsplit, hpar, pow_one]
        conv_rhs => rw [Nat.mul_mod]

theorem zmod_pow_cast (p b e : ℕ) :
    ((b : ZMod p)) ^ e = ((b ^ e % p : ℕ) : ZMod p) := by
  rw [ZMod.natCast_mod, Nat.cast_pow]

theorem prime_mem_of_dvd_prod (q : ℕ) (hq : Nat.Prime q) :
    ∀ (facs : List (ℕ × ℕ)), AllPrime facs →
      q ∣ (facs.map (fun qe => qe.1 ^ qe.2)).prod → ∃ qe ∈ facs, q = qe.1 := by
  intro facs
  induction facs with
  | nil =>
    intro _ hdvd
    simp only [List.map_nil, List.prod_nil] at hdvd
    exact absurd (Nat.eq_one_of_dvd_one hdvd) hq.ne_one
  | cons qe rest ih =>
    intro hall hdvd
    simp only [List.map_cons, List.prod_cons] at hdvd
    rcases (Nat.Prime.dvd_mul hq).1 hdvd with h | h
    · refine ⟨qe, List.mem_cons_self _ _, ?_⟩
      exact (Nat.prime_dvd_prime_iff_eq hq hall.1).1 (hq.dvd_of_dvd_pow h)
    · obtain ⟨qe', hmem, heq⟩ := ih hall.2 h
      exact ⟨qe', List.mem_cons_of_mem _ hmem, heq⟩

theorem lucasCheck_sound (p g : ℕ) (facs : List (ℕ × ℕ))
    (hfac : AllPrime facs) (h : lucasCheck p g facs = true) : Nat.Prime p := by
  unfold lucasCheck at h
  simp only [Bool.and_eq_true, decide_eq_true_eq, beq_iff_eq, List.all_eq_true,
    Bool.not_eq_true', beq_eq_false_iff_ne, ne_eq] at h
  obtain ⟨⟨⟨⟨hp2, hpbound⟩, hprod⟩, hpow1⟩, hpowq⟩ := h
  have hp0 : 0 < p := by omega
  have hbound : ∀ e : ℕ, e ≤ p - 1 → e < 2 ^ 300 := by
    intro e he
    omega
  apply lucas_primality p (g : ZMod p)
  · rw [zmod_pow_cast]
    rw [← powMod_correct 300 (p - 1) (hbound _ le_rfl) g p hp0]
    rw [hpow1, ZMod.natCast_mod, Nat.cast_one]
  · intro q hq hdvd
    obtain ⟨qe, hmem, rfl⟩ := prime_mem_of_dvd_prod q hq facs hfac (hprod ▸ hdvd)
    intro heq
    apply hpowq qe hmem
    rw [powMod_correct 300 ((p - 1) / qe.1) (hbound _ (Nat.div_le_self _ _)) g p hp0]
    rw [zmod_pow_cast] at heq
    have := (ZMod.natCast_eq_natCast_iff' _ _ _).1 (heq.trans Nat.cast_one.symm)
    simpa [Nat.mod_mod_of_dvd] using this
theorem prime_2 : Nat.Prime 2 := by norm_num
theorem prime_3 : Nat.Prime 3 := by norm_num
theorem prime_5 : Nat.Prime 5 := by norm_num
theorem prime_7 : Nat.Prime 7 := by norm_num
theorem prime_11 : Nat.Prime 11 := by norm_num
theorem prime_13 : Nat.Prime 13 := by norm_num
theorem prime_17 : Nat.Prime 17 := by norm_num
theorem prime_19 : Nat.Prime 19 := by norm_num
theorem prime_23 : Nat.Prime 23 := by norm_num
theorem prime_29 : Nat.Prime 29 := by norm_num
theorem prime_41 : Nat.Prime 41 := by norm_num
theorem prime_59 : Nat.Prime 59 := by norm_num
theorem prime_67 : Nat.Prime 67 := by norm_num
theorem prime_97 : Nat.Prime 97 := by norm_num
theorem prime_109 : Nat.Prime 109 := by norm_num
theorem prime_113 : Nat.Prime 113 := by norm_num
theorem prime_149 : Nat.Prime 149 := by norm_num
theorem prime_293 : Nat.Prime 293 := by norm_num
theorem prime_461 : Nat.Prime 461 := by norm_num
theorem prime_631 : Nat.Prime 631 := by norm_num
theorem prime_797 : Nat.Prime 797 := by norm_num

theorem prime_1409 : Nat.Prime 1409 :=
  lucasCheck_sound 1409 3 [(2, 7), (11, 1)] ⟨prime_2, prime_11, trivial⟩ (by decide)

theorem prime_1871 : Nat.Prime 1871 :=
  lucasCheck_sound 1871 14 [(2, 1), (5, 1), (11, 1), (17, 1)] ⟨prime_2, prime_5, prime_11, prime_17, trivial⟩ (by decide)

theorem prime_2011 : Nat.Prime 2011 :=
  lucasCheck_sound 2011 3 [(2, 1), (3, 1), (5, 1), (67, 1)] ⟨prime_2, prime_3, prime_5, prime_67, trivial⟩ (by decide)

theorem prime_2731 : Nat.Prime 2731 :=
  lucasCheck_sound 2731 3 [(2, 1), (3, 1), (5, 1), (7, 1), (13, 1)] ⟨prime_2, prime_3, prime_5, prime_7, prime_13, trivial⟩ (by decide)

theorem prime_2861 : Nat.Prime 2861 :=
  lucasCheck_sound 2861 2 [(2, 2), (5, 1), (11, 1), (13, 1)] ⟨prime_2, prime_5, prime_11, prime_13, trivial⟩ (by decide)

theorem prime_4051 : Nat.Prime 4051 :=
  lucasCheck_sound 4051 10 [(2, 1), (3, 4), (5, 2)] ⟨prime_2, prime_3, prime_5, trivial⟩ (by decide)

theorem prime_9349 : Nat.Prime 9349 :=
  lucasCheck_sound 9349 2 [(2, 2), (3, 1), (19, 1), (41, 1)] ⟨prime_2, prime_3, prime_19, prime_41, trivial⟩ (by decide)

theorem prime_16699 : Nat.Prime 16699 :=
  lucasCheck_sound 16699 3 [(2, 1), (3, 1), (11, 2), (23, 1)] ⟨prime_2, prime_3, prime_11, prime_23, trivial⟩ (by decide)

theorem prime_28181 : Nat.Prime 28181 :=
  lucasCheck_sound 28181 2 [(2, 2), (5, 1), (1409, 1)] ⟨prime_2, prime_5, prime_1409, trivial⟩ (by decide)

theorem prime_85831 : Nat.Prime 85831 :=
  lucasCheck_sound 85831 3 [(2, 1), (3, 1), (5, 1), (2861, 1)] ⟨prime_2, prime_3, prime_5, prime_2861, trivial⟩ (by decide)

theorem prime_120233 : Nat.Prime 120233 :=
  lucasCheck_sound 120233 3 [(2, 3), (7, 1), (19, 1), (113, 1)] ⟨prime_2, prime_7, prime_19, prime_113, trivial⟩ (by decide)

theorem prime_305873 : Nat.Prime 305873 :=
  lucasCheck_sound 305873 3 [(2, 4), (7, 1), (2731, 1)] ⟨prime_2, prime_7, prime_2731, trivial⟩ (by decide)

theorem prime_1627771 : Nat.Prime 1627771 :=
  lucasCheck_sound 1627771 3 [(2, 1), (3, 1), (5, 1), (29, 1), (1871, 1)] ⟨prime_2, prime_3, prime_5, prime_29, prime_1871, trivial⟩ (by decide)

theorem prime_4681609 : Nat.Prime 4681609 :=
  lucasCheck_sound 4681609 23 [(2, 3), (3, 1), (97, 1), (2011, 1)] ⟨prime_2, prime_3, prime_97, prime_2011, trivial⟩ (by decide)

theorem prime_44706919 : Nat.Prime 44706919 :=
  lucasCheck_sound 44706919 6 [(2, 1), (3, 1), (797, 1), (9349, 1)] ⟨prime_2, prime_3, prime_797, prime_9349, trivial⟩ (by decide)

theorem prime_545358713 : Nat.Prime 545358713 :=
  lucasCheck_sound 545358713 5 [(2, 3), (41, 1), (59, 1), (28181, 1)] ⟨prime_2, prime_41, prime_59, prime_28181, trivial⟩ (by decide)

theorem prime_297159362677 : Nat.Prime 297159362677 :=
  lucasCheck_sound 297159362677 2 [(2, 2), (3, 2), (11, 1), (461, 1), (1627771, 1)] ⟨prime_2, prime_3, prime_11, prime_461, prime_1627771, trivial⟩ (by decide)

theorem prime_29047611873442575647497758179 : Nat.Prime 29047611873442575647497758179 :=
  lucasCheck_sound 29047611873442575647497758179 2 [(2, 1), (293, 1), (305873, 1), (545358713, 1), (297159362677, 1)] ⟨prime_2, prime_293, prime_305873, prime_545358713, prime_297159362677, trivial⟩ (by decide)

theorem prime_341948486974166000522343609283189 : Nat.Prime 341948486974166000522343609283189 :=
  lucasCheck_sound 341948486974166000522343609283189 2 [(2, 2), (3, 3), (109, 1), (29047611873442575647497758179, 1)] ⟨prime_2, prime_3, prime_109, prime_29047611873442575647497758179, trivial⟩ (by decide)

theorem prime_174723607534414371449 : Nat.Prime 174723607534414371449 :=
  lucasCheck_sound 174723607534414371449 3 [(2, 3), (17, 1), (59, 1), (4051, 1), (120233, 1), (44706919, 1)] ⟨prime_2, prime_17, prime_59, prime_4051, prime_120233, prime_44706919, trivial⟩ (by decide)

theorem prime_107361793816595537 : Nat.Prime 107361793816595537 :=
  lucasCheck_sound 107361793816595537 3 [(2, 4), (16699, 1), (85831, 1), (4681609, 1)] ⟨prime_2, prime_16699, prime_85831, prime_4681609, trivial⟩ (by decide)

/-- The secp256k1 group order is prime. -/
theorem Nval_prime : Nat.Prime Nval :=
  lucasCheck_sound Nval 7 [(2, 6), (3, 1), (149, 1), (631, 1), (107361793816595537, 1), (174723607534414371449, 1), (341948486974166000522343609283189, 1)] ⟨prime_2, prime_3, prime_149, prime_631, prime_107361793816595537, prime_174723607534414371449, prime_341948486974166000522343609283189, trivial⟩ (by decide)

instance : Fact (Nat.Prime Nval) := ⟨Nval_prime⟩

namespace pyfrost

theorem bind_ok {α β : Type} (x : Except String α) (f : α → Except String β) (b : β) :
    (x >>= f) = Except.ok b ↔ ∃ a, x = Except.ok a ∧ f a = Except.ok b := by
  cases x <;> simp [Bind.bind, Except.bind]

theorem attr_ok {α : Type} (o : Option α) (a : α) : attr o = Except.ok a ↔ o = some a := by
  cases o <;> simp [attr]

theorem mapE_ok_iff {α β : Type} (f : α → Except String β) :
    ∀ (l : List α) (out : List β),
      mapE f l = .ok out ↔ List.Forall₂ (fun a b => f a = .ok b) l out := by
  intro l
  induction l with
  | nil =>
    intro out
    constructor
    · intro h
      cases h
      exact List.Forall₂.nil
    · intro h
      cases h
      rfl
  | cons a rest ih =>
    intro out
    constructor
    · intro h
      simp only [mapE, bind_ok] at h
      obtain ⟨b, hb, h⟩ := h
      obtain ⟨bs, hbs, h⟩ := h
      cases h
      exact List.Forall₂.cons hb ((ih bs).1 hbs)
    · intro h
      cases h with
      | cons hb hbs =>
        simp only [mapE, bind_ok]
        exact ⟨_, hb, _, (ih _).2 hbs, rfl⟩

theorem mapE_map {α β : Type} (f : α → Except String β) (g : α → β)
    (l : List α) (h : ∀ a ∈ l, f a = .ok (g a)) : mapE f l = .ok (l.map g) := by
  induction l with
  | nil => rfl
  | cons a rest ih =>
    simp only [mapE, bind_ok, List.map_cons]
    exact ⟨g a, h a (List.mem_cons_self _ _),
      rest.map g, ih (fun a ha => h a (List.mem_cons_of_mem _ ha)), rfl⟩

theorem forall₂_eq_map {α β : Type} (R : α → β → Prop) (g : α → β)
    (hR : ∀ a b, R a b → b = g a) :
    ∀ {l : List α} {out : List β}, List.Forall₂ R l out → out = l.map g := by
  intro l out h
  induction h with
  | nil => rfl
  | cons hab _ ih =>
    simp only [List.map_cons]
    rw [ih, hR _ _ hab]

theorem intCast_emod (a : ℤ) (n : ℕ) : ((a.emod (n : ℤ) : ℤ) : ZMod n) = (a : ZMod n) :=
  ZMod.intCast_mod a n

theorem evalFrom_eq_sum (x : ℤ) : ∀ (coeffs : List ℤ) (i : ℕ),
    evalFrom x i coeffs
      = ((List.range coeffs.length).map (fun k => coeffs.getD k 0 * x ^ (k + i))).sum := by
  intro coeffs
  induction coeffs with
  | nil => intro i; rfl
  | cons c rest ih =>
    intro i
    simp only [evalFrom, List.length_cons, List.range_succ_eq_map, List.map_cons,
      List.sum_cons, List.getD_cons_zero, List.getD_cons_succ, zero_add, List.map_map]
    rw [ih (i + 1)]
    have hfun : (fun k => rest.getD k 0 * x ^ (k + (i + 1)))
        = ((fun k => (c :: rest).getD k 0 * x ^ (k + i)) ∘ Nat.succ) := by
      funext k
      simp only [Function.comp_apply, List.getD_cons_succ, Nat.succ_eq_add_one, pow_add,
        pow_succ, pow_one]
      ring
    rw [hfun]

theorem natAbs_sub_of_mul_nonpos (i u : ℤ) (h : i * u ≤ 0) :
    (i - u).natAbs = i.natAbs + u.natAbs := by
  rcases mul_nonpos_iff.mp h with ⟨h1, h2⟩ | ⟨h1, h2⟩ <;> omega

theorem modInvLoop_spec (a₀ m₀ : ℕ) (hm₀ : 1 < m₀) :
    ∀ fuel n m : ℕ, m < fuel → n ≠ 0 → Nat.gcd n m = 1 →
    ∀ i t : ℤ, i * t ≤ 0 →
      i.natAbs * m + t.natAbs * n = m₀ →
      i.natAbs < m₀ →
      i * (a₀ : ℤ) ≡ (n : ℤ) [ZMOD (m₀ : ℤ)] →
      t * (a₀ : ℤ) ≡ (m : ℤ) [ZMOD (m₀ : ℤ)] →
      (modInvLoop fuel n m i t) * (a₀ : ℤ) ≡ 1 [ZMOD (m₀ : ℤ)] ∧
      (modInvLoop fuel n m i t).natAbs < m₀ := by
  intro fuel
  induction fuel with
  | zero => intro n m hfuel; omega
  | succ fuel ih =>
    intro n m hfuel hn0 hgcd i t hsign hmag habs hci hct
    by_cases hn : 1 < n
    · have hm0 : m ≠ 0 := by
        intro hm
        rw [hm, Nat.gcd_zero_right] at hgcd
        omega
      simp only [modInvLoop, if_pos hn]
      set q : ℕ := n / m with hq
      have hmod : n % m + m * (n / m) = n := Nat.mod_add_div n m
      have hiu : i * ((q : ℤ) * t) ≤ 0 := by
        have h1 : i * ((q : ℤ) * t) = (q : ℤ) * (i * t) := by ring
        rw [h1]
        exact mul_nonpos_of_nonneg_of_nonpos (Int.natCast_nonneg q) hsign
      have habs' : (i - (q : ℤ) * t).natAbs = i.natAbs + q * t.natAbs := by
        rw [natAbs_sub_of_mul_nonpos i ((q : ℤ) * t) hiu, Int.natAbs_mul, Int.natAbs_ofNat]
      apply ih m (n % m)
      · have := Nat.mod_lt n (Nat.pos_of_ne_zero hm0)
        omega
      · exact hm0
      · rw [Nat.gcd_comm m (n % m), ← Nat.gcd_rec, Nat.gcd_comm]
        exact hgcd
      · have h1 : t * (i - (q : ℤ) * t) = i * t - (q : ℤ) * t ^ 2 := by ring
        rw [h1]
        have h2 : (0 : ℤ) ≤ (q : ℤ) * t ^ 2 :=
          mul_nonneg (Int.natCast_nonneg q) (sq_nonneg t)
        linarith
      · rw [habs']
        calc t.natAbs * (n % m) + (i.natAbs + q * t.natAbs) * m
            = i.natAbs * m + t.natAbs * (n % m + m * q) := by ring
          _ = i.natAbs * m + t.natAbs * n := by rw [hmod]
          _ = m₀ := hmag
      · have h2 : t.natAbs * 2 ≤ t.natAbs * n := Nat.mul_le_mul_left _ (by omega)
        omega
      · exact hct
      · have h1 : (i - (q : ℤ) * t) * (a₀ : ℤ) = i * a₀ - (q : ℤ) * (t * a₀) := by ring
        rw [h1]
        have h2 : i * (a₀ : ℤ) - (q : ℤ) * (t * a₀)
            ≡ (n : ℤ) - (q : ℤ) * (m : ℤ) [ZMOD (m₀ : ℤ)] :=
          Int.ModEq.sub hci (hct.mul_left _)
        have h3 : ((n % m : ℕ) : ℤ) = (n : ℤ) - (q : ℤ) * (m : ℤ) := by
          have h4 : ((n % m : ℕ) : ℤ) + (m : ℤ) * ((n / m : ℕ) : ℤ) = (n : ℤ) := by
            exact_mod_cast congrArg (Nat.cast : ℕ → ℤ) hmod
          rw [← hq] at h4
          linarith
        rw [h3]
        exact h2
    · have hn1 : n = 1 := by omega
      simp only [modInvLoop, if_neg hn]
      subst hn1
      exact ⟨by simpa using hci, habs⟩

theorem mod_inverse_correct (number : ℤ) (hmod : number.emod (Nval : ℤ) ≠ 0) :
    1 ≤ mod_inverse number Nval ∧ mod_inverse number Nval < (Nval : ℤ) ∧
    (number * mod_inverse number Nval).emod (Nval : ℤ) = 1 := by
  have hNpos : (0 : ℤ) < (Nval : ℤ) := by decide
  have hN1 : 1 < Nval := by decide
  have hnn : 0 ≤ number.emod (Nval : ℤ) := Int.emod_nonneg number (by decide)
  have hlt : number.emod (Nval : ℤ) < (Nval : ℤ) := Int.emod_lt_of_pos number hNpos
  set a₀ : ℕ := (number.emod (Nval : ℤ)).toNat with ha₀
  have hcast : ((a₀ : ℕ) : ℤ) = number.emod (Nval : ℤ) := Int.toNat_of_nonneg hnn
  have ha₀0 : a₀ ≠ 0 := by
    intro h
    rw [h] at hcast
    exact hmod hcast.symm
  have ha₀lt : a₀ < Nval := by
    have : ((a₀ : ℕ) : ℤ) < (Nval : ℤ) := hcast ▸ hlt
    exact_mod_cast this
  have hgcd : Nat.gcd a₀ Nval = 1 := by
    have hnd : ¬ Nval ∣ a₀ := by
      intro hdvd
      have := Nat.le_of_dvd (Nat.pos_of_ne_zero ha₀0) hdvd
      omega
    exact Nat.Coprime.symm (Nval_prime.coprime_iff_not_dvd.mpr hnd)
  obtain ⟨hcong, habs⟩ := modInvLoop_spec a₀ Nval hN1 (Nval + 2) a₀ Nval
    (by omega) ha₀0 hgcd 1 0 (by simp) (by simp) (by omega)
    (by simpa using Int.ModEq.refl (a₀ : ℤ))
    (by
      have : (Nval : ℤ) ≡ 0 [ZMOD (Nval : ℤ)] :=
        (Int.modEq_iff_dvd.mpr (by simp)).symm
      simpa using this.symm)
  set r : ℤ := modInvLoop (Nval + 2) a₀ Nval 1 0 with hr
  have hnum : number ≡ ((a₀ : ℕ) : ℤ) [ZMOD (Nval : ℤ)] := by
    unfold Int.ModEq
    rw [hcast]
    exact (Int.emod_emod_of_dvd number dvd_rfl).symm
  have hrne0 : r * (a₀ : ℤ) ≡ 1 [ZMOD (Nval : ℤ)] := hcong
  have key : ∀ r' : ℤ, r' ≡ r [ZMOD (Nval : ℤ)] →
      (number * r').emod (Nval : ℤ) = 1 := by
    intro r' hr'
    have h1 : number * r' ≡ (a₀ : ℤ) * r [ZMOD (Nval : ℤ)] := hnum.mul hr'
    have h2 : number * r' ≡ 1 [ZMOD (Nval : ℤ)] := by
      calc number * r' ≡ (a₀ : ℤ) * r [ZMOD (Nval : ℤ)] := h1
        _ = r * (a₀ : ℤ) := by ring
        _ ≡ 1 [ZMOD (Nval : ℤ)] := hrne0
    have h3 : (number * r').emod (Nval : ℤ) = (1 : ℤ).emod (Nval : ℤ) := h2
    rw [h3]
    decide
  unfold mod_inverse
  simp only [if_neg (show ¬ Nval = 1 by decide)]
  rw [← hr]
  by_cases hneg : r < 0
  · simp only [if_pos hneg]
    have hrange : 1 ≤ r + (Nval : ℤ) ∧ r + (Nval : ℤ) < (Nval : ℤ) := by omega
    refine ⟨hrange.1, hrange.2, key _ ?_⟩
    have : (Nval : ℤ) ≡ 0 [ZMOD (Nval : ℤ)] := (Int.modEq_iff_dvd.mpr (by simp)).symm
    simpa using (Int.ModEq.refl r).add this
  · simp only [if_neg hneg]
    have hr0 : r ≠ 0 := by
      intro h0
      have h1 : (0 : ℤ) ≡ 1 [ZMOD (Nval : ℤ)] := by
        have := hcong
        rw [h0] at this
        simpa using this
      have h2 : (Nval : ℤ) ∣ 1 - 0 := Int.ModEq.dvd h1
      have h3 : (Nval : ℤ) ≤ 1 := Int.le_of_dvd (by norm_num) (by simpa using h2)
      omega
    exact ⟨by omega, by omega, key r (Int.ModEq.refl r)⟩

theorem decrypt_ok (c : Encrypted) (k : Point) (p : SharePayload) :
    decrypt c k = .ok p ↔ c.key = k ∧ p = c.payload := by
  unfold decrypt
  split
  · simp only [Except.ok.injEq]
    constructor
    · intro h
      exact ⟨by assumption, h.symm⟩
    · intro h
      exact h.2.symm
  · simp only [reduceCtorEq, false_iff, not_and]
    intro h
    exact absurd h (by assumption)

theorem round3Item_payload (st : KeyGen) (secret_key : ℤ)
    (ppk : List (ℕ × Point)) (bl : List R1Data) (m : R2Msg) (d : SharePayload)
    (h : round3Item st secret_key ppk bl m = .ok d) : d = m.data.payload := by
  unfold round3Item at h
  rw [bind_ok] at h
  obtain ⟨spk, _, h⟩ := h
  split at h
  · rw [bind_ok] at h
    obtain ⟨data, hdec, h⟩ := h
    rw [bind_ok] at h
    obtain ⟨u, _, h⟩ := h
    cases h
    exact ((decrypt_ok _ _ _).1 hdec).2
  · exact absurd h (by simp)

/-- Claim C6, corrected, counterexample part: `mod_inverse(0, n)` does not
    fail; it silently returns 1. -/
theorem C6_counterexample :
    mod_inverse 0 Nval = 1 ∧ ((0 : ℤ) * mod_inverse 0 Nval).emod (Nval : ℤ) ≠ 1 := by
  decide

theorem modInvLoop_exit (fuel n m : ℕ) (i t : ℤ) (h : n ≤ 1) :
    modInvLoop fuel n m i t = i := by
  cases fuel with
  | zero => rfl
  | succ fuel => simp only [modInvLoop, if_neg (by omega : ¬ 1 < n)]

/-- Claim C6, amended: for `a` not divisible by `n`, `mod_inverse(a, n)` is
    the unique inverse of `a` in `[1, n)`; for `a ≡ 0 (mod n)` it does not
    fail but returns 1. -/
theorem C6_mod_inverse (a : ℤ) :
    (a.emod (Nval : ℤ) ≠ 0 →
      1 ≤ mod_inverse a Nval ∧ mod_inverse a Nval < (Nval : ℤ) ∧
      (a * mod_inverse a Nval).emod (Nval : ℤ) = 1 ∧
      (∀ b : ℤ, 1 ≤ b → b < (Nval : ℤ) → (a * b).emod (Nval : ℤ) = 1 →
        b = mod_inverse a Nval))
    ∧ (a.emod (Nval : ℤ) = 0 → mod_inverse a Nval = 1) := by
  constructor
  · intro hne
    obtain ⟨h1, h2, h3⟩ := mod_inverse_correct a hne
    refine ⟨h1, h2, h3, ?_⟩
    intro b hb1 hb2 hb3
    set r := mod_inverse a Nval with hr
    have hbr : b ≡ r [ZMOD (Nval : ℤ)] := by
      have hab : a * b ≡ 1 [ZMOD (Nval : ℤ)] := by
        show (a * b).emod (Nval : ℤ) = (1 : ℤ).emod (Nval : ℤ)
        rw [hb3]
        decide
      have har : a * r ≡ 1 [ZMOD (Nval : ℤ)] := by
        show (a * r).emod (Nval : ℤ) = (1 : ℤ).emod (Nval : ℤ)
        rw [h3]
        decide
      calc b = b * 1 := by ring
        _ ≡ b * (a * r) [ZMOD (Nval : ℤ)] := (har.symm).mul_left b
        _ = (a * b) * r := by ring
        _ ≡ 1 * r [ZMOD (Nval : ℤ)] := hab.mul_right r
        _ = r := by ring
    have hb' : b.emod (Nval : ℤ) = b := Int.emod_eq_of_lt (by omega) hb2
    have hr' : r.emod (Nval : ℤ) = r := Int.emod_eq_of_lt (by omega) h2
    have hfinal : b.emod (Nval : ℤ) = r.emod (Nval : ℤ) := hbr
    rw [hb', hr'] at hfinal
    exact hfinal
  · intro h0
    unfold mod_inverse
    simp only [if_neg (show ¬ Nval = 1 by decide)]
    have hn : (a.emod (Nval : ℤ)).toNat = 0 := by omega
    rw [hn, modInvLoop_exit _ _ _ _ _ (by omega)]
    norm_num

/-- Witness for C6 at the concrete input `a = 3`. -/
theorem C6_witness :
    1 ≤ mod_inverse 3 Nval ∧ mod_inverse 3 Nval < (Nval : ℤ) ∧
    ((3 : ℤ) * mod_inverse 3 Nval).emod (Nval : ℤ) = 1 ∧
    (∀ b : ℤ, 1 ≤ b → b < (Nval : ℤ) → ((3 : ℤ) * b).emod (Nval : ℤ) = 1 →
      b = mod_inverse 3 Nval) :=
  (C6_mod_inverse 3).1 (by decide)

theorem bytesFromHexDigits_none :
    ∀ (l : List ℕ), (bytesFromHexDigits l = none ↔ l.length % 2 = 1)
  | [] => by simp [bytesFromHexDigits]
  | [d] => by simp [bytesFromHexDigits]
  | d0 :: d1 :: rest => by
    have ih := bytesFromHexDigits_none rest
    simp only [bytesFromHexDigits, List.length_cons, Option.map_eq_none']
    rw [ih]
    omega

/-- Claim C10: `generate_hkdf_key(key)` raises `ValueError` exactly when the
    decimal representation of `key` has an odd number of digits, and otherwise
    returns a 32-byte key. -/
theorem C10_generate_hkdf_key (derive : List ℕ → { l : List ℕ // l.length = 32 }) (key : ℕ) :
    (generate_hkdf_key derive key = none ↔ (decimalDigits key).length % 2 = 1)
    ∧ (∀ out, generate_hkdf_key derive key = some out → out.1.length = 32) := by
  constructor
  · unfold generate_hkdf_key
    rw [Option.map_eq_none']
    exact bytesFromHexDigits_none _
  · intro out _
    exact out.2

/-- Witness for C10: `key = 10` has two decimal digits and yields 32 bytes. -/
theorem C10_witness :
    ∃ out, generate_hkdf_key (fun _ => ⟨List.replicate 32 0, by simp⟩) 10 = some out
      ∧ out.1.length = 32 := by
  refine ⟨⟨List.replicate 32 0, by simp⟩, rfl, ?_⟩
  exact (C10_generate_hkdf_key (fun _ => ⟨List.replicate 32 0, by simp⟩) 10).2 _ rfl

/-- Claim C3, corrected, counterexample part: `Polynomial.evaluate` does not
    reduce mod `n`: the honest scalar coefficients `[1, 1]` evaluated at
    `x = n` give `n + 1`, not `1`. -/
theorem C3_counterexample :
    (Polynomial.mk 2 [1, 1]).evaluate (Nval : ℤ) = (Nval : ℤ) + 1 ∧
    ((Polynomial.mk 2 [1, 1]).evaluate (Nval : ℤ)).emod (Nval : ℤ) = 1 ∧
    (Polynomial.mk 2 [1, 1]).evaluate (Nval : ℤ)
      ≠ ((Polynomial.mk 2 [1, 1]).evaluate (Nval : ℤ)).emod (Nval : ℤ) := by
  refine ⟨?_, ?_, ?_⟩ <;> decide

/-- Claim C3, amended: `evaluate` returns the plain integer `Σ aᵢ·xⁱ`
    (congruent mod `n` to the specified value but not reduced), and the
    `share` assembled by `round3` is the plain integer sum of the share
    fragments (own evaluation plus the decrypted values), again unreduced. -/
theorem C3_scalars :
    (∀ (f : Polynomial) (x : ℤ), (f.evaluate x).emod (Nval : ℤ) = specEvaluate f.coefficients x)
    ∧ (∀ (env : Env) (st : KeyGen) (msgs : List R2Msg) (out : KeyGen × R3Result),
        KeyGen.round3 env st msgs = .ok out →
        ∃ fx, st.fx = some fx ∧
          out.2.dkg_key_pair.share
            = fx.evaluate (st.node_id : ℤ) + (msgs.map (fun m => m.data.payload.f)).sum) := by
  constructor
  · intro f x
    unfold specEvaluate Polynomial.evaluate
    rw [evalFrom_eq_sum]
    simp
  · intro env st msgs out h
    unfold KeyGen.round3 at h
    rw [bind_ok] at h
    obtain ⟨secret_key, hsk, h⟩ := h
    rw [bind_ok] at h
    obtain ⟨ppk, hppk, h⟩ := h
    rw [bind_ok] at h
    obtain ⟨bl, hbl, h⟩ := h
    rw [bind_ok] at h
    obtain ⟨round2_data, hr2, h⟩ := h
    rw [bind_ok] at h
    obtain ⟨fx, hfx, h⟩ := h
    rw [bind_ok] at h
    obtain ⟨pfx, hpfx, h⟩ := h
    rw [bind_ok] at h
    obtain ⟨own0, hown, h⟩ := h
    rw [bind_ok] at h
    obtain ⟨others0, hoth, h⟩ := h
    cases h
    refine ⟨fx, (attr_ok _ _).1 hfx, ?_⟩
    have hpay : round2_data = msgs.map (fun m => m.data.payload) :=
      forall₂_eq_map _ _ (fun m d hmd => round3Item_payload st secret_key ppk bl m d hmd)
        ((mapE_ok_iff _ msgs round2_data).1 hr2)
    simp only [hpay, List.sum_cons, List.map_map]
    rfl

/-- Witness for C3: a concrete `round3` call returning an unreduced share. -/
theorem C3_witness :
    ((Polynomial.mk 2 [1, 1]).evaluate 0).emod (Nval : ℤ) = specEvaluate [1, 1] 0
    ∧ ∃ out, KeyGen.round3 env0 st0 [] = .ok out ∧ ∃ fx, st0.fx = some fx ∧
      out.2.dkg_key_pair.share
        = fx.evaluate ((st0.node_id : ℕ) : ℤ)
          + (([] : List R2Msg).map (fun m => m.data.payload.f)).sum := by
  constructor
  · exact C3_scalars.1 (Polynomial.mk 2 [1, 1]) 0
  · exact ⟨_, rfl, C3_scalars.2 env0 st0 [] _ rfl⟩

theorem calcFrom_eq (x : ℤ) : ∀ (coeffs : List ℤ) (i : ℕ),
    calcFrom x i (coeffs.map (fun c : ℤ => (c : ZMod Nval) * G))
      = ((evalFrom x i coeffs : ℤ) : ZMod Nval) * G := by
  intro coeffs
  induction coeffs with
  | nil =>
    intro i
    simp [calcFrom, evalFrom]
  | cons c rest ih =>
    intro i
    simp only [List.map_cons, calcFrom, evalFrom]
    rw [ih (i + 1), intCast_emod]
    push_cast
    ring

/-- Claim C4: for a polynomial with a nonempty coefficient list,
    `calc_poly_point(coef_pub_keys(), x)` is exactly `evaluate(x) · G`: the
    Feldman check accepts precisely the honestly computed shares. -/
theorem C4_calc_poly_point (f : Polynomial) (x : ℤ) (h : f.coefficients ≠ []) :
    calc_poly_point f.coef_pub_keys x = .ok (((f.evaluate x : ℤ) : ZMod Nval) * G) := by
  unfold calc_poly_point Polynomial.coef_pub_keys Polynomial.evaluate
  cases hc : f.coefficients with
  | nil => exact absurd hc h
  | cons c rest =>
    simp only [List.map_cons]
    have hcalc := calcFrom_eq x (c :: rest) 0
    simp only [List.map_cons] at hcalc
    rw [hcalc]

/-- Witness for C4 at a concrete polynomial. -/
theorem C4_witness :
    calc_poly_point (Polynomial.mk 1 [2]).coef_pub_keys 3
      = .ok ((((Polynomial.mk 1 [2]).evaluate 3 : ℤ) : ZMod Nval) * G) :=
  C4_calc_poly_point (Polynomial.mk 1 [2]) 3 (by simp)

end pyfrost

theorem list_range_sum {M : Type} [AddCommMonoid M] (n : ℕ) (f : ℕ → M) :
    ((List.range n).map f).sum = ∑ i ∈ Finset.range n, f i := by
  induction n with
  | zero => rfl
  | succ n ih =>
    rw [List.range_succ, List.map_append, List.sum_append, Finset.sum_range_succ, ih]
    simp

theorem list_range_filter_prod {M : Type} [CommMonoid M] (j : ℕ) (f : ℕ → M) :
    ∀ n : ℕ, (((List.range n).filter (fun k => k ≠ j)).map f).prod
      = ∏ i ∈ (Finset.range n).erase j, f i := by
  intro n
  induction n with
  | zero => rfl
  | succ n ih =>
    rw [List.range_succ, List.filter_append, List.map_append, List.prod_append, ih,
      Finset.range_succ]
    by_cases hj : n = j
    · subst hj
      rw [Finset.erase_insert (by simp)]
      simp
    · rw [Finset.erase_insert_of_ne (Ne.symm ?_), Finset.prod_insert (by simp)]
      · simp only [List.filter_cons, List.filter_nil, decide_eq_true_eq]
        rw [if_pos hj]
        simp [mul_comm]
      · exact fun h => hj h.symm

theorem lagrange_eval_sum {K : Type} [Field K] (T : ℕ) (v : ℕ → K)
    (hinj : Set.InjOn v (Finset.range T)) (f : Polynomial K)
    (hdeg : f.degree < (T : ℕ)) (x : K) :
    ∑ j ∈ Finset.range T,
      ((∏ k ∈ (Finset.range T).erase j, (v j - v k)⁻¹)
        * (∏ k ∈ (Finset.range T).erase j, (x - v k))) * f.eval (v j)
      = f.eval x := by
  have hdeg' : f.degree < (Finset.range T).card := by
    rwa [Finset.card_range]
  have h := Lagrange.eq_interpolate hinj hdeg'
  conv_rhs => rw [h]
  rw [Lagrange.interpolate_apply, Polynomial.eval_finset_sum]
  refine Finset.sum_congr rfl ?_
  intro j hj
  rw [Polynomial.eval_mul, Polynomial.eval_C, Lagrange.basis, Polynomial.eval_prod]
  have hb : ∀ k ∈ (Finset.range T).erase j,
      Polynomial.eval x (Lagrange.basisDivisor (v j) (v k)) = (v j - v k)⁻¹ * (x - v k) := by
    intro k _
    simp [Lagrange.basisDivisor]
  rw [Finset.prod_congr rfl hb, Finset.prod_mul_distrib]
  ring

theorem evalFrom_cast (coeffs : List ℤ) (x : ℤ) :
    ((pyfrost.evalFrom x 0 coeffs : ℤ) : ZMod Nval)
      = Polynomial.eval (x : ZMod Nval)
          (∑ i ∈ Finset.range coeffs.length,
            Polynomial.C ((coeffs.getD i 0 : ℤ) : ZMod Nval) * Polynomial.X ^ i) := by
  rw [pyfrost.evalFrom_eq_sum, Polynomial.eval_finset_sum]
  rw [list_range_sum coeffs.length (fun k => coeffs.getD k 0 * x ^ (k + 0))]
  push_cast
  refine Finset.sum_congr rfl ?_
  intro i _
  simp [mul_comm]

theorem degree_sum_C_mul_X_lt {K : Type} [Field K] (T : ℕ) (a : ℕ → K) :
    (∑ i ∈ Finset.range T, Polynomial.C (a i) * Polynomial.X ^ i).degree
      < ((T : ℕ) : WithBot ℕ) := by
  apply lt_of_le_of_lt (Polynomial.degree_sum_le _ _)
  rw [Finset.sup_lt_iff (by exact_mod_cast WithBot.bot_lt_coe T)]
  intro i hi
  apply lt_of_le_of_lt (Polynomial.degree_C_mul_X_pow_le _ _)
  exact_mod_cast Finset.mem_range.mp hi

theorem mod_inverse_cast (d : ℤ) (hd : ((d : ℤ) : ZMod Nval) ≠ 0) :
    ((pyfrost.mod_inverse d Nval : ℤ) : ZMod Nval) = ((d : ℤ) : ZMod Nval)⁻¹ := by
  have hne : d.emod (Nval : ℤ) ≠ 0 := by
    intro h
    apply hd
    rw [← pyfrost.intCast_emod, h]
    exact Int.cast_zero
  obtain ⟨_, _, h3⟩ := pyfrost.mod_inverse_correct d hne
  have hmul : ((d : ℤ) : ZMod Nval) * ((pyfrost.mod_inverse d Nval : ℤ) : ZMod Nval) = 1 := by
    have := congrArg (fun z : ℤ => ((z : ℤ) : ZMod Nval)) h3
    simp only at this
    rw [pyfrost.intCast_emod] at this
    push_cast at this
    simpa using this
  exact eq_inv_of_mul_eq_one_right hmul

theorem langrange_coef_cast (j T : ℕ) (ids : List ℕ) (x : ℤ) (hj : j < T)
    (hinj : Set.InjOn (fun k => ((ids.getD k 0 : ℕ) : ZMod Nval)) (Finset.range T)) :
    ((pyfrost.langrange_coef j T ids x : ℤ) : ZMod Nval)
      = (∏ k ∈ (Finset.range T).erase j, (((ids.getD j 0 : ℕ) : ZMod Nval) - ((ids.getD k 0 : ℕ) : ZMod Nval))⁻¹)
        * (∏ k ∈ (Finset.range T).erase j, ((x : ZMod Nval) - ((ids.getD k 0 : ℕ) : ZMod Nval))) := by
  have hnum : (((((List.range T).filter (fun k => k ≠ j)).map
      (fun k => x - ((ids.getD k 0 : ℕ) : ℤ))).prod : ℤ) : ZMod Nval)
      = ∏ k ∈ (Finset.range T).erase j, ((x : ZMod Nval) - ((ids.getD k 0 : ℕ) : ZMod Nval)) := by
    rw [Int.cast_list_prod, List.map_map,
      ← list_range_filter_prod j (fun k => ((x : ZMod Nval) - ((ids.getD k 0 : ℕ) : ZMod Nval))) T]
    refine congrArg List.prod (List.map_congr_left ?_)
    intro k _
    simp
  have hden : (((((List.range T).filter (fun k => k ≠ j)).map
      (fun k => ((ids.getD j 0 : ℕ) : ℤ) - ((ids.getD k 0 : ℕ) : ℤ))).prod : ℤ) : ZMod Nval)
      = ∏ k ∈ (Finset.range T).erase j,
          (((ids.getD j 0 : ℕ) : ZMod Nval) - ((ids.getD k 0 : ℕ) : ZMod Nval)) := by
    rw [Int.cast_list_prod, List.map_map,
      ← list_range_filter_prod j
        (fun k => (((ids.getD j 0 : ℕ) : ZMod Nval) - ((ids.getD k 0 : ℕ) : ZMod Nval))) T]
    refine congrArg List.prod (List.map_congr_left ?_)
    intro k _
    simp
  have hdenne : (∏ k ∈ (Finset.range T).erase j,
      (((ids.getD j 0 : ℕ) : ZMod Nval) - ((ids.getD k 0 : ℕ) : ZMod Nval))) ≠ 0 := by
    rw [Finset.prod_ne_zero_iff]
    intro k hk
    have hkj : k ≠ j := (Finset.mem_erase.mp hk).1
    have hkr : k ∈ Finset.range T := (Finset.mem_erase.mp hk).2
    intro hzero
    have heq : ((ids.getD j 0 : ℕ) : ZMod Nval) = ((ids.getD k 0 : ℕ) : ZMod Nval) :=
      sub_eq_zero.mp hzero
    exact hkj (hinj hkr (Finset.mem_range.mpr hj) heq.symm)
  have hdcast : ((((List.range T).filter (fun k => k ≠ j)).map
      (fun k => ((ids.getD j 0 : ℕ) : ℤ) - ((ids.getD k 0 : ℕ) : ℤ))).prod : ZMod Nval) ≠ 0 := by
    rw [hden]
    exact hdenne
  unfold pyfrost.langrange_coef
  rw [Int.cast_mul, mod_inverse_cast _ hdcast, hnum, hden, ← Finset.prod_inv_distrib]

theorem getD_eq_getElem' {α : Type} (l : List α) (d : α) (i : ℕ) (h : i < l.length) :
    l.getD i d = l[i] := by
  simp [List.getD_eq_getElem?_getD, List.getElem?_eq_getElem h]

theorem emod_eq_of_lt' (a b : ℤ) (h0 : 0 ≤ a) (h1 : a < b) : a.emod b = a :=
  Int.emod_eq_of_lt h0 h1

theorem int_emod_eq (a b : ℤ) : a.emod b = a % b := rfl

theorem reconstruct_fold (term : ℕ → ℤ) :
    ∀ (js : List ℕ) (s : ℤ), 0 ≤ s → s < (Nval : ℤ) →
      0 ≤ js.foldl (fun sum j => (sum + (term j).emod (Nval : ℤ)).emod (Nval : ℤ)) s
      ∧ js.foldl (fun sum j => (sum + (term j).emod (Nval : ℤ)).emod (Nval : ℤ)) s < (Nval : ℤ)
      ∧ ((js.foldl (fun sum j => (sum + (term j).emod (Nval : ℤ)).emod (Nval : ℤ)) s : ℤ) : ZMod Nval)
        = (s : ZMod Nval) + (js.map (fun j => ((term j : ℤ) : ZMod Nval))).sum := by
  intro js
  induction js with
  | nil =>
    intro s h0 h1
    exact ⟨h0, h1, by simp⟩
  | cons j rest ih =>
    intro s h0 h1
    have hNz : (Nval : ℤ) ≠ 0 := by decide
    have hNpos : (0 : ℤ) < (Nval : ℤ) := by decide
    have h0' : 0 ≤ (s + (term j).emod (Nval : ℤ)).emod (Nval : ℤ) := Int.emod_nonneg _ hNz
    have h1' : (s + (term j).emod (Nval : ℤ)).emod (Nval : ℤ) < (Nval : ℤ) :=
      Int.emod_lt_of_pos _ hNpos
    obtain ⟨r0, r1, rc⟩ := ih _ h0' h1'
    refine ⟨r0, r1, ?_⟩
    simp only [List.foldl_cons, List.map_cons, List.sum_cons]
    rw [rc, pyfrost.intCast_emod]
    push_cast
    rw [pyfrost.intCast_emod]
    ring

/-- Claim C5: `reconstruct_share` applied to `T` shares of a polynomial with
    `T` coefficients, carried by distinct nonzero identifiers, returns the
    evaluation of the polynomial at `x`, reduced mod `n`. -/
theorem C5_reconstruct_share (T : ℕ) (fcoeffs : List ℤ) (shares : List pyfrost.Share) (x : ℤ)
    (hflen : fcoeffs.length = T)
    (hlen : shares.length = T)
    (hbound : ∀ s ∈ shares, 0 < s.id ∧ s.id < Nval)
    (hnd : (shares.map (fun s => s.id)).Nodup)
    (hkey : ∀ s ∈ shares, s.key = (pyfrost.evalFrom (s.id : ℤ) 0 fcoeffs).emod (Nval : ℤ)) :
    pyfrost.reconstruct_share shares T x
      = .ok ((pyfrost.evalFrom x 0 fcoeffs).emod (Nval : ℤ)) := by
  have hNz : (Nval : ℤ) ≠ 0 := by decide
  have hNpos : (0 : ℤ) < (Nval : ℤ) := by decide
  set ids : List ℕ := shares.map (fun s => s.id) with hids
  have hidslen : ids.length = T := by
    rw [hids, List.length_map, hlen]
  have hid_mem : ∀ j, j < T → ids.getD j 0 = (shares.getD j ⟨0, 0⟩).id := by
    intro j hj
    rw [getD_eq_getElem' ids 0 j (by omega), getD_eq_getElem' shares ⟨0, 0⟩ j (by omega)]
    simp [hids]
  have hid_bound : ∀ j, j < T → 0 < ids.getD j 0 ∧ ids.getD j 0 < Nval := by
    intro j hj
    have h1 : ids.getD j 0 = (shares.get ⟨j, by omega⟩).id := by
      rw [getD_eq_getElem' ids 0 j (by omega)]
      simp [hids]
    rw [h1]
    exact hbound _ (List.getElem_mem _)
  have hinj : Set.InjOn (fun k => ((ids.getD k 0 : ℕ) : ZMod Nval)) (Finset.range T) := by
    intro a ha b hb heq
    simp only [Finset.coe_range, Set.mem_Iio] at ha hb
    have ha' := hid_bound a ha
    have hb' := hid_bound b hb
    simp only at heq
    have hmod := (ZMod.natCast_eq_natCast_iff' _ _ _).1 heq
    rw [Nat.mod_eq_of_lt ha'.2, Nat.mod_eq_of_lt hb'.2] at hmod
    have hga : ids.getD a 0 = ids.get ⟨a, by omega⟩ := getD_eq_getElem' _ _ _ (by omega)
    have hgb : ids.getD b 0 = ids.get ⟨b, by omega⟩ := getD_eq_getElem' _ _ _ (by omega)
    rw [hga, hgb] at hmod
    have hfin : (⟨a, by omega⟩ : Fin ids.length) = ⟨b, by omega⟩ :=
      List.nodup_iff_injective_getElem.mp hnd (by simpa using hmod)
    simpa using congrArg Fin.val hfin
  unfold pyfrost.reconstruct_share
  rw [if_pos hlen]
  simp only [← hids]
  obtain ⟨r0, r1, rc⟩ := reconstruct_fold
    (fun j => (shares.getD j ⟨0, 0⟩).key * pyfrost.langrange_coef j T ids x)
    (List.range T) 0 le_rfl hNpos
  have hemod := Int.emod_nonneg (pyfrost.evalFrom x 0 fcoeffs) hNz
  have hemod2 := Int.emod_lt_of_pos (pyfrost.evalFrom x 0 fcoeffs) hNpos
  congr 1
  rw [emod_eq_of_lt' _ _ r0 r1]
  have hsum : ((List.range T).map
      (fun j => (((shares.getD j ⟨0, 0⟩).key * pyfrost.langrange_coef j T ids x : ℤ) : ZMod Nval))).sum
      = (((pyfrost.evalFrom x 0 fcoeffs).emod (Nval : ℤ) : ℤ) : ZMod Nval) := by
    rw [list_range_sum T (fun j => (((shares.getD j ⟨0, 0⟩).key * pyfrost.langrange_coef j T ids x : ℤ) : ZMod Nval))]
    have hterm : ∀ j ∈ Finset.range T,
        (((shares.getD j ⟨0, 0⟩).key * pyfrost.langrange_coef j T ids x : ℤ) : ZMod Nval)
        = ((∏ k ∈ (Finset.range T).erase j,
              (((ids.getD j 0 : ℕ) : ZMod Nval) - ((ids.getD k 0 : ℕ) : ZMod Nval))⁻¹)
            * (∏ k ∈ (Finset.range T).erase j,
              ((x : ZMod Nval) - ((ids.getD k 0 : ℕ) : ZMod Nval))))
          * Polynomial.eval (((ids.getD j 0 : ℕ) : ZMod Nval))
              (∑ i ∈ Finset.range fcoeffs.length,
                Polynomial.C ((fcoeffs.getD i 0 : ℤ) : ZMod Nval) * Polynomial.X ^ i) := by
      intro j hj
      have hjT : j < T := Finset.mem_range.mp hj
      rw [Int.cast_mul, langrange_coef_cast j T ids x hjT hinj]
      have hkeyj : (shares.getD j ⟨0, 0⟩).key
          = (pyfrost.evalFrom ((shares.getD j ⟨0, 0⟩).id : ℤ) 0 fcoeffs).emod (Nval : ℤ) := by
        rw [getD_eq_getElem' shares ⟨0, 0⟩ j (by omega)]
        exact hkey _ (List.getElem_mem _)
      rw [hkeyj, pyfrost.intCast_emod, evalFrom_cast fcoeffs]
      rw [← hid_mem j hjT]
      push_cast
      ring
    rw [Finset.sum_congr rfl hterm]
    rw [lagrange_eval_sum T (fun k => ((ids.getD k 0 : ℕ) : ZMod Nval)) hinj _ ?deg (x : ZMod Nval)]
    · rw [← evalFrom_cast fcoeffs x, pyfrost.intCast_emod]
    case deg =>
      have hdg := degree_sum_C_mul_X_lt fcoeffs.length
        (fun i => ((fcoeffs.getD i 0 : ℤ) : ZMod Nval))
      have hTeq : ((fcoeffs.length : ℕ) : WithBot ℕ) = ((T : ℕ) : WithBot ℕ) := by
        exact_mod_cast hflen
      rw [← hTeq]
      exact hdg
  rw [hsum] at rc
  simp only [Int.cast_zero, zero_add] at rc
  have htotal := (ZMod.intCast_eq_intCast_iff' _ _ _).1 rc
  simp only [int_emod_eq] at htotal r0 r1 ⊢
  rw [Int.emod_eq_of_lt r0 r1, Int.emod_emod_of_dvd _ dvd_rfl] at htotal
  exact htotal

/-- Witness for C5: two shares of the polynomial `1 + x` reconstruct its
    constant term at `x = 0`. -/
theorem C5_witness :
    pyfrost.reconstruct_share [⟨1, 2⟩, ⟨2, 3⟩] 2 0
      = .ok ((pyfrost.evalFrom 0 0 [1, 1]).emod (Nval : ℤ)) :=
  C5_reconstruct_share 2 [1, 1] [⟨1, 2⟩, ⟨2, 3⟩] 0 rfl rfl (by decide) (by decide) (by decide)

/-- Claim C7, corrected, counterexample part: a session that has reached the
    terminal COMPLETED state accepts a second `round3` call and returns
    SUCCESSFUL again — no `InvalidState` failure occurs. -/
theorem C7_counterexample :
    ∃ st3 r1 st4 r2, pyfrost.c7run = .ok (st3, r1, st4, r2)
      ∧ st3.status = "COMPLETED" ∧ r2.status = "SUCCESSFUL"
      ∧ st4.status = "COMPLETED" :=
  ⟨_, _, _, _, rfl, rfl, rfl, rfl⟩

/-- Claim C7, amended: the rounds perform no state check at all.  Calling
    `round2` or `round3` before `round1`/`round2` fails only because the
    session attributes are missing (`AttributeError`, not an `InvalidState`
    error — no such error kind exists in the code), and calling `round3`
    again after the terminal COMPLETED state does not fail: it re-executes
    and returns the same SUCCESSFUL result. -/
theorem C7_no_state_check :
    (∀ (env : pyfrost.Env) (dkg_id : String) (T id : ℕ) (partners : List ℕ)
       (c0 : Option ℤ) (kt : String) (bl : List pyfrost.R1Data),
       pyfrost.KeyGen.round2 env (pyfrost.KeyGen.init dkg_id T id partners c0 kt) bl
         = .error "AttributeError")
    ∧ (∀ (env : pyfrost.Env) (dkg_id : String) (T id : ℕ) (partners : List ℕ)
        (c0 : Option ℤ) (kt : String) (msgs : List pyfrost.R2Msg),
        pyfrost.KeyGen.round3 env (pyfrost.KeyGen.init dkg_id T id partners c0 kt) msgs
          = .error "AttributeError")
    ∧ (∀ (env : pyfrost.Env) (st : pyfrost.KeyGen) (msgs : List pyfrost.R2Msg)
        (out : pyfrost.KeyGen × pyfrost.R3Result),
        pyfrost.KeyGen.round3 env st msgs = .ok out →
        out.1.status = "COMPLETED" ∧ pyfrost.KeyGen.round3 env out.1 msgs = .ok out) := by
  refine ⟨fun env dkg_id T id partners c0 kt bl => rfl,
    fun env dkg_id T id partners c0 kt msgs => rfl, ?_⟩
  intro env st msgs out h
  unfold pyfrost.KeyGen.round3 at h
  rw [pyfrost.bind_ok] at h
  obtain ⟨sk, hsk, h⟩ := h
  rw [pyfrost.bind_ok] at h
  obtain ⟨ppk, hppk, h⟩ := h
  rw [pyfrost.bind_ok] at h
  obtain ⟨bl, hbl, h⟩ := h
  rw [pyfrost.bind_ok] at h
  obtain ⟨r2, hr2, h⟩ := h
  rw [pyfrost.bind_ok] at h
  obtain ⟨fx, hfx, h⟩ := h
  rw [pyfrost.bind_ok] at h
  obtain ⟨pfx, hpfx, h⟩ := h
  rw [pyfrost.bind_ok] at h
  obtain ⟨own0, hown, h⟩ := h
  rw [pyfrost.bind_ok] at h
  obtain ⟨others0, hoth, h⟩ := h
  cases h
  refine ⟨rfl, ?_⟩
  unfold pyfrost.KeyGen.round3
  rw [pyfrost.bind_ok]
  refine ⟨sk, hsk, ?_⟩
  rw [pyfrost.bind_ok]
  refine ⟨ppk, hppk, ?_⟩
  rw [pyfrost.bind_ok]
  refine ⟨bl, hbl, ?_⟩
  rw [pyfrost.bind_ok]
  refine ⟨r2, hr2, ?_⟩
  rw [pyfrost.bind_ok]
  refine ⟨fx, hfx, ?_⟩
  rw [pyfrost.bind_ok]
  refine ⟨pfx, hpfx, ?_⟩
  rw [pyfrost.bind_ok]
  refine ⟨own0, hown, ?_⟩
  rw [pyfrost.bind_ok]
  exact ⟨others0, hoth, rfl⟩

/-- Witness for C7 at concrete inputs: a fresh session's `round2` raises
    `AttributeError`, and a completed concrete session's `round3` re-runs. -/
theorem C7_witness :
    pyfrost.KeyGen.round2 pyfrost.env0 (pyfrost.KeyGen.init "d" 2 1 [] none "ETH") []
      = .error "AttributeError"
    ∧ ∃ out, pyfrost.KeyGen.round3 pyfrost.env0 pyfrost.st0 [] = .ok out
      ∧ out.1.status = "COMPLETED"
      ∧ pyfrost.KeyGen.round3 pyfrost.env0 out.1 [] = .ok out := by
  refine ⟨C7_no_state_check.1 pyfrost.env0 "d" 2 1 [] none "ETH" [], ?_⟩
  obtain ⟨h1, h2⟩ := C7_no_state_check.2.2 pyfrost.env0 pyfrost.st0 [] _ rfl
  exact ⟨_, rfl, h1, h2⟩

/-- Claim C9: on a share failing the Feldman check, `round3` does not return
    a COMPLAINT result: it raises `AttributeError`, because the handler calls
    the nonexistent method `self.complain` (the module-level helper
    `__create_complaint` is never wired in). -/
theorem C9_round3_complaint_bug :
    pyfrost.KeyGen.round3 pyfrost.env0 pyfrost.st9 [pyfrost.m9]
      = .error "AttributeError: KeyGen object has no attribute complain" := by
  rfl

theorem foldl_pred_of_step {α β : Type} (P : β → Prop) (f : β → α → β)
    (hstep : ∀ b a, P (f b a)) :
    ∀ (l : List α) (acc : β), l ≠ [] → P (l.foldl f acc) := by
  intro l
  induction l with
  | nil => intro acc h; exact absurd rfl h
  | cons n rest ih =>
    intro acc _
    rw [List.foldl_cons]
    cases rest with
    | nil => exact hstep _ _
    | cons m r2 => exact ih _ (by simp)

theorem signFoldStep_isSome (env : pyfrost.Env) (message : String)
    (nonces_list : List pyfrost.Nonce) (id : ℕ)
    (acc : Option pyfrost.Point × ℕ × ℕ × ℕ) (n : pyfrost.Nonce) :
    (pyfrost.signFoldStep env message nonces_list id acc n).1.isSome := by
  unfold pyfrost.signFoldStep
  cases acc.1 <;> dsimp only <;> split <;> rfl

/-- Claim C8, amended: `Key.sign` / `single_sign` perform no subset-size
    check (no `SubsetSizeMismatch` error exists anywhere in the code);
    `single_sign` uses `len(nonces_dict)` itself as the interpolation
    threshold and produces an ETH signature share for every nonempty
    commitments list, whatever threshold the DKG used. -/
theorem C8_no_size_check (env : pyfrost.Env) (k : pyfrost.Key)
    (nonces_list : List pyfrost.Nonce) (message : String) (d e : ℤ)
    (hkt : k.key_type = "ETH") (hne : nonces_list ≠ []) :
    ∃ out, pyfrost.Key.sign env k nonces_list message d e = .ok out := by
  unfold pyfrost.Key.sign pyfrost.single_sign
  have hsome := foldl_pred_of_step (fun acc => acc.1.isSome)
    (pyfrost.signFoldStep env message nonces_list k.node_id)
    (signFoldStep_isSome env message nonces_list k.node_id) nonces_list
    (none, 0, 0, 0) hne
  obtain ⟨R, hR⟩ := Option.isSome_iff_exists.mp hsome
  simp only [hR, hkt]
  exact ⟨_, rfl⟩

/-- Claim C8, corrected, counterexample part: a key (from a DKG of any
    threshold, in particular T = 2) signs with a single-element commitments
    dict and returns a signature share instead of any error. -/
theorem C8_counterexample :
    ∃ out, pyfrost.Key.sign pyfrost.env0
      ⟨⟨1, pyfrost.G⟩, 1, "ETH"⟩ [⟨1, pyfrost.G, pyfrost.G⟩] "m" 1 1 = .ok out :=
  ⟨_, rfl⟩

/-- Witness for C8 at a concrete nonempty commitments list. -/
theorem C8_witness :
    ∃ out, pyfrost.Key.sign pyfrost.env0
      ⟨⟨1, pyfrost.G⟩, 2, "ETH"⟩ [⟨2, pyfrost.G, pyfrost.G⟩, ⟨3, pyfrost.G, pyfrost.G⟩] "m" 1 1
      = .ok out :=
  C8_no_size_check pyfrost.env0 ⟨⟨1, pyfrost.G⟩, 2, "ETH"⟩
    [⟨2, pyfrost.G, pyfrost.G⟩, ⟨3, pyfrost.G, pyfrost.G⟩] "m" 1 1 rfl (by simp)


namespace pyfrost

theorem ok_bind {α β : Type} (a : α) (f : α → Except String β) :
    (Except.ok a >>= f : Except String β) = f a := rfl

theorem pure_eq_ok {α : Type} (a : α) : (pure a : Except String α) = Except.ok a := rfl

theorem schnorr_roundtrip (env : Env) (x r : ℤ) (m : ℕ) :
    schnorr_verify env ((x : ZMod Nval) * G) m (schnorr_sign env x r ((r : ZMod Nval) * G) m)
      = .ok true := by
  have hNpos : (0 : ℤ) < (Nval : ℤ) := by decide
  simp only [schnorr_sign, schnorr_verify]
  have hlt : (r - ((env.schnorr_hash ((r : ZMod Nval) * G) m : ℕ) : ℤ) * x).emod (Nval : ℤ)
      < (Nval : ℤ) := Int.emod_lt_of_pos _ hNpos
  rw [if_pos hlt]
  have hrv : (((r - ((env.schnorr_hash ((r : ZMod Nval) * G) m : ℕ) : ℤ) * x).emod
        (Nval : ℤ) : ℤ) : ZMod Nval) * G
      + ((env.schnorr_hash ((r : ZMod Nval) * G) m : ℕ) : ZMod Nval) * ((x : ZMod Nval) * G)
      = (r : ZMod Nval) * G := by
    rw [intCast_emod]
    push_cast
    ring
  rw [hrv]
  simp

theorem round1_spec (env : Env) (dkg_id : String) (T : ℕ) (c0 : Option ℤ)
    (ids : List ℕ) (p : Participant) (c : ℤ) (cs : List ℤ)
    (hc : (thePoly T c0 p).coefficients = c :: cs) :
    KeyGen.round1 env (KeyGen.init dkg_id T p.id (ids.filter (fun i => i ≠ p.id)) c0 "ETH")
        p.secret_key p.secret_nonce p.coef0_nonce p.rand_coeffs
      = .ok (r1st dkg_id T c0 ids p, r1bc env dkg_id T c0 p) := by
  have hP : Polynomial.make T c0 p.rand_coeffs = thePoly T c0 p := rfl
  simp only [KeyGen.round1, KeyGen.init, hP, Polynomial.coef_pub_keys, hc, List.map_cons,
    listHead, ok_bind, pure_eq_ok, r1st, r1bc, popSig, List.headI]

theorem verifySender_honest (env : Env) (dkg_id : String) (T : ℕ) (c0 : Option ℤ)
    (p : Participant) (c : ℤ) (cs : List ℤ)
    (hc : (thePoly T c0 p).coefficients = c :: cs) :
    verifySender env dkg_id (r1bc env dkg_id T c0 p) = .ok true := by
  simp only [verifySender, r1bc, Polynomial.coef_pub_keys, hc, List.map_cons, List.headI,
    listHead, popSig, ok_bind, pure_eq_ok, code_to_pub, pub_to_code]
  rw [schnorr_roundtrip, ok_bind, schnorr_roundtrip, ok_bind]
  rfl

end pyfrost

namespace pyfrost

theorem filter_of_map {α β : Type} (f : α → β) (pr : β → Bool) (l : List α) :
    (l.map f).filter pr = (l.filter (fun a => pr (f a))).map f := by
  induction l with
  | nil => rfl
  | cons a rest ih =>
    simp only [List.map_cons, List.filter_cons]
    cases h : pr (f a) <;> simp [ih]

theorem mapE_comp {α β γ : Type} (g : α → β) (f : β → Except String γ) (l : List α) :
    mapE f (l.map g) = mapE (fun a => f (g a)) l := by
  induction l with
  | nil => rfl
  | cons a rest ih => simp only [List.map_cons, mapE, ih]

theorem dictGet_map_key {β : Type} (h : Participant → β) (l : List Participant)
    (q : Participant) (hq : q ∈ l) (hnd : (l.map (fun x => x.id)).Nodup) :
    dictGet (l.map (fun x => (x.id, h x))) q.id = .ok (h q) := by
  induction l with
  | nil => cases hq
  | cons a rest ih =>
    simp only [List.map_cons, List.nodup_cons] at hnd
    simp only [List.map_cons, dictGet]
    rcases List.mem_cons.mp hq with rfl | hq'
    · rw [if_pos rfl]
    · have hne2 : a.id ≠ q.id := by
        intro h'
        apply hnd.1
        rw [h']
        exact List.mem_map_of_mem _ hq'
      rw [if_neg hne2]
      exact ih hq' hnd.2

theorem r1bc_sender (env : Env) (dkg_id : String) (T : ℕ) (c0 : Option ℤ)
    (q : Participant) : (r1bc env dkg_id T c0 q).sender_id = q.id := rfl

theorem filter_map_true_nil {γ : Type} (l : List γ) :
    (l.map (fun d => (d, true))).filter (fun c => !c.2) = [] := by
  induction l with
  | nil => rfl
  | cons a rest ih =>
    simp only [List.map_cons, List.filter_cons]
    simpa using ih

theorem contains_nil_false (a : ℕ) : (([] : List ℕ).contains a) = false := rfl

theorem filter_true_id {α : Type} (l : List α) : l.filter (fun _ => true) = l := by
  induction l with
  | nil => rfl
  | cons a rest ih => simp [List.filter_cons, ih]

theorem round2_spec (env : Env) (dkg_id : String) (T : ℕ) (c0 : Option ℤ)
    (parts : List Participant) (p : Participant)
    (hnd : (parts.map (fun x => x.id)).Nodup)
    (hne : ∀ q ∈ parts, (thePoly T c0 q).coefficients ≠ []) :
    KeyGen.round2 env (r1st dkg_id T c0 (parts.map (fun x => x.id)) p)
        (parts.map (r1bc env dkg_id T c0))
      = .ok (r2st env dkg_id T c0 (parts.map (fun x => x.id)) parts p,
          (parts.filter (fun q => q.id ≠ p.id)).map (r2msg T c0 p)) := by
  have hfx : attr (r1st dkg_id T c0 (parts.map (fun x => x.id)) p).fx
      = .ok (thePoly T c0 p) := rfl
  have hsk : attr (r1st dkg_id T c0 (parts.map (fun x => x.id)) p).secret_key
      = .ok p.secret_key := rfl
  have hnode : (r1st dkg_id T c0 (parts.map (fun x => x.id)) p).node_id = p.id := rfl
  have hdkg : (r1st dkg_id T c0 (parts.map (fun x => x.id)) p).dkg_id = dkg_id := rfl
  have hpart : (r1st dkg_id T c0 (parts.map (fun x => x.id)) p).partners
      = (parts.map (fun x => x.id)).filter (fun i => i ≠ p.id) := rfl
  have hmal0 : (r1st dkg_id T c0 (parts.map (fun x => x.id)) p).malicious
      = ([] : List ℕ) := rfl
  have hchecks : mapE (fun d => (verifySender env dkg_id d).map (fun ok => (d, ok)))
      ((parts.filter (fun q => q.id ≠ p.id)).map (r1bc env dkg_id T c0))
      = .ok (((parts.filter (fun q => q.id ≠ p.id)).map (r1bc env dkg_id T c0)).map
          (fun d => (d, true))) := by
    refine mapE_map _ _ _ ?_
    intro d hd
    obtain ⟨q, hq, rfl⟩ := List.mem_map.mp hd
    obtain ⟨c, cs, hc⟩ := List.exists_cons_of_ne_nil (hne q (List.mem_of_mem_filter hq))
    rw [verifySender_honest env dkg_id T c0 q c cs hc]
    rfl
  have hppk : (fun d : R1Data => (d.sender_id, d.public_key)) ∘ r1bc env dkg_id T c0
      = fun q => (q.id, pub_to_code ((q.secret_key : ZMod Nval) * G)) := rfl
  have hndf : ((parts.filter (fun q => q.id ≠ p.id)).map (fun x => x.id)).Nodup :=
    List.Nodup.sublist (List.Sublist.map _ (List.filter_sublist _)) hnd
  have hitem : ∀ q ∈ parts.filter (fun q => q.id ≠ p.id),
      round2Item (r1st dkg_id T c0 (parts.map (fun x => x.id)) p) p.secret_key
        (thePoly T c0 p)
        ((parts.filter (fun q => q.id ≠ p.id)).map
          (fun q => (q.id, pub_to_code ((q.secret_key : ZMod Nval) * G)))) q.id
      = .ok (r2msg T c0 p q) := by
    intro q hq
    unfold round2Item
    rw [dictGet_map_key (fun q => pub_to_code ((q.secret_key : ZMod Nval) * G))
      _ q hq hndf, ok_bind]
    rfl
  simp only [KeyGen.round2, hfx, hsk, hnode, hdkg, hpart, hmal0, ok_bind]
  simp only [filter_of_map, r1bc_sender]
  rw [hchecks, ok_bind]
  simp only [filter_map_true_nil, List.map_nil, List.nil_append, List.append_nil]
  simp only [contains_nil_false, Bool.not_false, filter_true_id]
  simp only [List.map_map, hppk, mapE_comp]
  rw [mapE_map _ _ _ hitem, ok_bind]
  refine congrArg (fun s => Except.ok
    (s, (parts.filter (fun q => q.id ≠ p.id)).map (r2msg T c0 p))) ?_
  simp only [r2st, r1st, KeyGen.init, filter_of_map]

end pyfrost

namespace pyfrost

theorem filter_id_eq_singleton (parts : List Participant) (q : Participant)
    (hq : q ∈ parts) (hnd : (parts.map (fun x => x.id)).Nodup) :
    parts.filter (fun r => r.id = q.id) = [q] := by
  induction parts with
  | nil => cases hq
  | cons a rest ih =>
    simp only [List.map_cons, List.nodup_cons] at hnd
    rcases List.mem_cons.mp hq with rfl | hq'
    · rw [List.filter_cons_of_pos (by simp)]
      have hnil : rest.filter (fun r => r.id = q.id) = [] := by
        refine List.filter_eq_nil_iff.mpr ?_
        intro r hr
        simp only [decide_eq_true_eq]
        intro h
        exact hnd.1 (by rw [← h]; exact List.mem_map_of_mem _ hr)
      rw [hnil]
    · have hne2 : ¬ (a.id = q.id) := by
        intro h
        exact hnd.1 (by rw [h]; exact List.mem_map_of_mem _ hq')
      rw [List.filter_cons_of_neg (by simpa using hne2)]
      exact ih hq' hnd.2

theorem sum_map_split {M : Type} [AddCommMonoid M] (f : Participant → M)
    (parts : List Participant) (p : Participant)
    (hp : p ∈ parts) (hnd : (parts.map (fun x => x.id)).Nodup) :
    (parts.map f).sum = f p + ((parts.filter (fun q => q.id ≠ p.id)).map f).sum := by
  induction parts with
  | nil => cases hp
  | cons a rest ih =>
    simp only [List.map_cons, List.nodup_cons] at hnd
    rcases List.mem_cons.mp hp with rfl | hp'
    · have hrest : rest.filter (fun q => q.id ≠ p.id) = rest := by
        refine List.filter_eq_self.mpr ?_
        intro r hr
        simp only [decide_eq_true_eq]
        intro h
        exact hnd.1 (by rw [← h]; exact List.mem_map_of_mem _ hr)
      rw [List.filter_cons_of_neg (by simp), hrest]
      simp
    · have hne2 : a.id ≠ p.id := by
        intro h
        exact hnd.1 (by rw [h]; exact List.mem_map_of_mem _ hp')
      rw [List.filter_cons_of_pos (by simpa using hne2)]
      simp only [List.map_cons, List.sum_cons, ih hp' hnd.2]
      rw [add_left_comm]

theorem foldl_add_sum (l : List Point) (x : Point) :
    l.foldl (fun acc P => acc + P) x = x + l.sum := by
  induction l generalizing x with
  | nil => simp
  | cons a rest ih => simp [List.foldl_cons, ih, add_assoc]

theorem sum_map_mul_G {α : Type} (f : α → ℤ) (l : List α) :
    (l.map (fun a => ((f a : ℤ) : ZMod Nval) * G)).sum
      = (((l.map f).sum : ℤ) : ZMod Nval) * G := by
  induction l with
  | nil => simp
  | cons a rest ih =>
    simp only [List.map_cons, List.sum_cons, ih]
    push_cast
    ring

theorem forE_ok {α : Type} (f : α → Except String Unit) (l : List α)
    (h : ∀ a ∈ l, f a = .ok ()) : forE f l = .ok () := by
  unfold forE
  rw [mapE_map f (fun _ => ()) l (by intro a ha; simpa using h a ha)]
  rfl

theorem calc_poly_point_cons (P : Point) (rest : List Point) (x : ℤ) :
    calc_poly_point (P :: rest) x = .ok (calcFrom x 0 (P :: rest)) := rfl

theorem calc_poly_point_eval (f : Polynomial) (x : ℤ) (hne : f.coefficients ≠ []) :
    calc_poly_point f.coef_pub_keys x = .ok (((f.evaluate x : ℤ) : ZMod Nval) * G) := by
  obtain ⟨c, cs, hc⟩ := List.exists_cons_of_ne_nil hne
  have h1 : f.coef_pub_keys = (c :: cs).map (fun c : ℤ => (c : ZMod Nval) * G) := by
    unfold Polynomial.coef_pub_keys
    rw [hc]
  have h2 : calc_poly_point ((c :: cs).map (fun c : ℤ => (c : ZMod Nval) * G)) x
      = .ok (calcFrom x 0 ((c :: cs).map (fun c : ℤ => (c : ZMod Nval) * G))) := rfl
  rw [h1, h2, calcFrom_eq]
  unfold Polynomial.evaluate
  rw [hc]

theorem ite_ne_self {α : Type} (P : Point) (a b : α) : (if P ≠ P then a else b) = b :=
  if_neg (fun h => h rfl)

theorem map_code_pub_id (l : List Point) : (l.map pub_to_code).map code_to_pub = l := by
  induction l with
  | nil => rfl
  | cons a rest ih =>
    simp only [List.map_cons, ih]
    rfl

theorem filter_partners_bl (env : Env) (dkg_id : String) (T : ℕ) (c0 : Option ℤ)
    (parts : List Participant) (p : Participant) :
    (parts.map (r1bc env dkg_id T c0)).filter
        (fun d => ((parts.map (fun x => x.id)).filter (fun i => i ≠ p.id)).contains d.sender_id)
      = (parts.filter (fun q => q.id ≠ p.id)).map (r1bc env dkg_id T c0) := by
  rw [filter_of_map]
  refine congrArg (List.map (r1bc env dkg_id T c0)) ?_
  refine List.filter_congr ?_
  intro q hq
  rw [r1bc_sender]
  have hc : (((parts.map (fun x => x.id)).filter (fun i => i ≠ p.id)).contains q.id)
      = decide (q.id ∈ (parts.map (fun x => x.id)).filter (fun i => i ≠ p.id)) :=
    List.elem_eq_mem _ _
  rw [hc]
  by_cases hqe : q.id = p.id
  · simp [List.mem_filter, hqe]
  · simp only [List.mem_filter, List.mem_map, decide_eq_decide]
    simp only [hqe, decide_eq_true_eq]
    constructor
    · intro _
      exact hqe
    · intro _
      exact ⟨⟨q, hq, rfl⟩, by simpa using hqe⟩

end pyfrost

namespace pyfrost

theorem round3Item_honest (env : Env) (dkg_id : String) (T : ℕ) (c0 : Option ℤ)
    (parts : List Participant) (p q : Participant)
    (hq : q ∈ parts) (hqid : q.id ≠ p.id)
    (hnd : (parts.map (fun x => x.id)).Nodup)
    (hcq : (thePoly T c0 q).coefficients ≠ []) :
    round3Item (r2st env dkg_id T c0 (parts.map (fun x => x.id)) parts p) p.secret_key
      ((parts.filter (fun r => r.id ≠ p.id)).map
        (fun r => (r.id, pub_to_code ((r.secret_key : ZMod Nval) * G))))
      (parts.map (r1bc env dkg_id T c0))
      (r2msg T c0 q p)
    = .ok { receiver_id := p.id, f := (thePoly T c0 q).evaluate (p.id : ℤ) } := by
  have hqf : q ∈ parts.filter (fun r => r.id ≠ p.id) :=
    List.mem_filter.mpr ⟨hq, by simpa using hqid⟩
  have hndf : ((parts.filter (fun r => r.id ≠ p.id)).map (fun x => x.id)).Nodup :=
    List.Nodup.sublist (List.Sublist.map _ (List.filter_sublist _)) hnd
  have hnode : (r2st env dkg_id T c0 (parts.map (fun x => x.id)) parts p).node_id
      = p.id := rfl
  have hsend : (r2msg T c0 q p).sender_id = q.id := rfl
  have hrecv : (r2msg T c0 q p).receiver_id = p.id := rfl
  unfold round3Item
  simp only [hsend, hrecv, hnode]
  rw [dictGet_map_key (fun r => pub_to_code ((r.secret_key : ZMod Nval) * G))
    _ q hqf hndf, ok_bind]
  rw [if_true]
  have hdec : decrypt (r2msg T c0 q p).data
      (pub_to_code ((p.secret_key : ZMod Nval)
        * code_to_pub (pub_to_code ((q.secret_key : ZMod Nval) * G))))
      = .ok { receiver_id := p.id, f := (thePoly T c0 q).evaluate (p.id : ℤ) } := by
    refine (decrypt_ok _ _ _).mpr ⟨?_, rfl⟩
    show (q.secret_key : ZMod Nval) * ((p.secret_key : ZMod Nval) * G)
      = pub_to_code ((p.secret_key : ZMod Nval)
          * code_to_pub (pub_to_code ((q.secret_key : ZMod Nval) * G)))
    show (q.secret_key : ZMod Nval) * ((p.secret_key : ZMod Nval) * G)
      = (p.secret_key : ZMod Nval) * ((q.secret_key : ZMod Nval) * G)
    ring
  rw [hdec, ok_bind]
  have hfl : (parts.map (r1bc env dkg_id T c0)).filter (fun d => d.sender_id = q.id)
      = [r1bc env dkg_id T c0 q] := by
    rw [filter_of_map]
    have hcong : parts.filter (fun a => decide ((r1bc env dkg_id T c0 a).sender_id = q.id))
        = parts.filter (fun r => r.id = q.id) := by
      refine List.filter_congr ?_
      intro r hr
      rw [r1bc_sender]
    rw [hcong, filter_id_eq_singleton parts q hq hnd]
    rfl
  rw [hfl]
  rw [forE_ok _ _ ?helems, ok_bind]
  case helems =>
    intro d hd
    rw [List.mem_singleton] at hd
    subst hd
    have hpf : (r1bc env dkg_id T c0 q).public_fx.map code_to_pub
        = (thePoly T c0 q).coef_pub_keys := by
      show ((thePoly T c0 q).coef_pub_keys.map pub_to_code).map code_to_pub = _
      exact map_code_pub_id _
    rw [hpf, calc_poly_point_eval _ _ hcq, ok_bind]
    rw [ite_ne_self]
    rfl
  rfl

end pyfrost

namespace pyfrost

theorem round3_spec (env : Env) (dkg_id : String) (T : ℕ) (c0 : Option ℤ)
    (parts : List Participant) (p : Participant)
    (hp : p ∈ parts)
    (hnd : (parts.map (fun x => x.id)).Nodup)
    (hcoef : ∀ q ∈ parts, (thePoly T c0 q).coefficients ≠ []) :
    KeyGen.round3 env (r2st env dkg_id T c0 (parts.map (fun x => x.id)) parts p)
        ((parts.filter (fun q => q.id ≠ p.id)).map (fun q => r2msg T c0 q p))
      = .ok (r3st env dkg_id T c0 (parts.map (fun x => x.id)) parts p,
          r3res T c0 parts p) := by
  have hsk : attr (r2st env dkg_id T c0 (parts.map (fun x => x.id)) parts p).secret_key
      = .ok p.secret_key := rfl
  have hppk : attr
      (r2st env dkg_id T c0 (parts.map (fun x => x.id)) parts p).partners_public_keys
      = .ok ((parts.filter (fun q => q.id ≠ p.id)).map
          (fun q => (q.id, pub_to_code ((q.secret_key : ZMod Nval) * G)))) := rfl
  have hbl : attr
      (r2st env dkg_id T c0 (parts.map (fun x => x.id)) parts p).round1_broadcasted_data
      = .ok (parts.map (r1bc env dkg_id T c0)) := rfl
  have hfx : attr (r2st env dkg_id T c0 (parts.map (fun x => x.id)) parts p).fx
      = .ok (thePoly T c0 p) := rfl
  have hpfx : attr (r2st env dkg_id T c0 (parts.map (fun x => x.id)) parts p).public_fx
      = .ok (thePoly T c0 p).coef_pub_keys := rfl
  have hnode : (r2st env dkg_id T c0 (parts.map (fun x => x.id)) parts p).node_id
      = p.id := rfl
  have hpart : (r2st env dkg_id T c0 (parts.map (fun x => x.id)) parts p).partners
      = (parts.map (fun x => x.id)).filter (fun i => i ≠ p.id) := rfl
  have hkt : (r2st env dkg_id T c0 (parts.map (fun x => x.id)) parts p).key_type
      = "ETH" := rfl
  have hitems : ∀ q ∈ parts.filter (fun r => r.id ≠ p.id),
      round3Item (r2st env dkg_id T c0 (parts.map (fun x => x.id)) parts p) p.secret_key
        ((parts.filter (fun r => r.id ≠ p.id)).map
          (fun r => (r.id, pub_to_code ((r.secret_key : ZMod Nval) * G))))
        (parts.map (r1bc env dkg_id T c0)) (r2msg T c0 q p)
      = .ok ({ receiver_id := p.id,
               f := (thePoly T c0 q).evaluate (p.id : ℤ) } : SharePayload) := by
    intro q hqf
    have hq : q ∈ parts := List.mem_of_mem_filter hqf
    have hqid : q.id ≠ p.id := by simpa using List.of_mem_filter hqf
    exact round3Item_honest env dkg_id T c0 parts p q hq hqid hnd (hcoef q hq)
  have hown : listHead (thePoly T c0 p).coef_pub_keys
      = .ok (((thePoly T c0 p).coefficients.headI : ZMod Nval) * G) := by
    obtain ⟨c, cs, hc⟩ := List.exists_cons_of_ne_nil (hcoef p hp)
    unfold Polynomial.coef_pub_keys
    rw [hc]
    simp [listHead, List.headI]
  have hoth : ∀ q ∈ parts.filter (fun r => r.id ≠ p.id),
      (listHead (r1bc env dkg_id T c0 q).public_fx).map code_to_pub
        = .ok (((thePoly T c0 q).coefficients.headI : ZMod Nval) * G) := by
    intro q hqf
    obtain ⟨c, cs, hc⟩ :=
      List.exists_cons_of_ne_nil (hcoef q (List.mem_of_mem_filter hqf))
    have h1 : (r1bc env dkg_id T c0 q).public_fx
        = ((thePoly T c0 q).coefficients.map
            (fun c : ℤ => (c : ZMod Nval) * G)).map pub_to_code := rfl
    rw [h1, hc]
    simp only [List.map_cons, listHead, hc, List.headI]
    rfl
  have hY : ((thePoly T c0 p).coefficients.headI : ZMod Nval) * G
      + ((((parts.filter (fun r => r.id ≠ p.id)).map
            (fun q => (thePoly T c0 q).coefficients.headI)).sum : ℤ) : ZMod Nval) * G
      = dkgY T c0 parts := by
    unfold dkgY
    rw [sum_map_split (fun q => (thePoly T c0 q).coefficients.headI) parts p hp hnd]
    push_cast
    ring
  have hshare : ((thePoly T c0 p).evaluate (p.id : ℤ)
      :: ((parts.filter (fun q => q.id ≠ p.id)).map
          (fun q => ({ receiver_id := p.id,
                       f := (thePoly T c0 q).evaluate (p.id : ℤ) } : SharePayload))).map
        (fun d => d.f)).sum
      = dkgShare T c0 parts p := by
    rw [List.sum_cons, List.map_map]
    rfl
  simp only [KeyGen.round3, hsk, hppk, hbl, hfx, hpfx, hnode, hpart, hkt, ok_bind]
  simp only [mapE_comp]
  rw [mapE_map _ _ _ hitems]
  simp only [ok_bind]
  rw [hown]
  simp only [ok_bind]
  rw [filter_partners_bl]
  simp only [mapE_comp]
  rw [mapE_map _ _ _ hoth]
  simp only [ok_bind]
  rw [foldl_add_sum, sum_map_mul_G, hY, hshare]
  rfl

end pyfrost

namespace pyfrost

theorem filter_flatten {α : Type} (pr : α → Bool) (L : List (List α)) :
    L.flatten.filter pr = (L.map (fun l => l.filter pr)).flatten := by
  induction L with
  | nil => rfl
  | cons a rest ih => simp [List.flatten_cons, List.filter_append, ih]

theorem flatten_map_opt {α : Type} (parts : List Participant) (q : Participant)
    (g : Participant → α) :
    (parts.map (fun s => if s.id = q.id then ([] : List α) else [g s])).flatten
      = (parts.filter (fun s => s.id ≠ q.id)).map g := by
  induction parts with
  | nil => rfl
  | cons a rest ih =>
    simp only [List.map_cons, List.flatten_cons, ih]
    by_cases h : a.id = q.id
    · rw [if_pos h, List.filter_cons_of_neg (by simpa using h), List.nil_append]
    · rw [if_neg h, List.filter_cons_of_pos (by simpa using h)]
      simp [List.singleton_append]

theorem route_inbox (T : ℕ) (c0 : Option ℤ) (parts : List Participant) (q : Participant)
    (hqp : q ∈ parts) (hnd : (parts.map (fun x => x.id)).Nodup) :
    ((parts.map (fun s => (parts.filter (fun r => r.id ≠ s.id)).map
        (r2msg T c0 s))).flatten).filter (fun m => m.receiver_id = q.id)
      = (parts.filter (fun s => s.id ≠ q.id)).map (fun s => r2msg T c0 s q) := by
  rw [filter_flatten, List.map_map]
  have hinner : ((fun l : List R2Msg => l.filter (fun m => m.receiver_id = q.id))
      ∘ (fun s => (parts.filter (fun r => r.id ≠ s.id)).map (r2msg T c0 s)))
      = fun s => if s.id = q.id then ([] : List R2Msg) else [r2msg T c0 s q] := by
    funext s
    show ((parts.filter (fun r => r.id ≠ s.id)).map (r2msg T c0 s)).filter
        (fun m => m.receiver_id = q.id) = _
    rw [filter_of_map]
    have hcong2 : (parts.filter (fun r => r.id ≠ s.id)).filter
        (fun a => decide ((r2msg T c0 s a).receiver_id = q.id))
        = (parts.filter (fun r => r.id ≠ s.id)).filter (fun r => r.id = q.id) := by
      refine List.filter_congr ?_
      intro r hr
      rfl
    rw [hcong2]
    by_cases h : s.id = q.id
    · rw [if_pos h]
      have hnil2 : (parts.filter (fun r => r.id ≠ s.id)).filter
          (fun r => r.id = q.id) = [] := by
        refine List.filter_eq_nil_iff.mpr ?_
        intro r hr
        have hrne : ¬ (r.id = s.id) := by simpa using List.of_mem_filter hr
        simp only [decide_eq_true_eq]
        intro hh
        exact hrne (by rw [hh, ← h])
      rw [hnil2, List.map_nil]
    · rw [if_neg h]
      have hqin : q ∈ parts.filter (fun r => r.id ≠ s.id) :=
        List.mem_filter.mpr ⟨hqp, by simpa using (fun hh : q.id = s.id => h hh.symm)⟩
      have hnd2 : ((parts.filter (fun r => r.id ≠ s.id)).map (fun x => x.id)).Nodup :=
        List.Nodup.sublist (List.Sublist.map _ (List.filter_sublist _)) hnd
      rw [filter_id_eq_singleton _ q hqin hnd2]
      rfl
  rw [hinner, flatten_map_opt]

theorem runDKG_honest (env : Env) (dkg_id : String) (T : ℕ) (c0 : Option ℤ)
    (parts : List Participant)
    (hnd : (parts.map (fun x => x.id)).Nodup)
    (hcoef : ∀ q ∈ parts, (thePoly T c0 q).coefficients ≠ []) :
    runDKG env dkg_id T c0 parts
      = .ok (parts.map (fun p =>
          (r3st env dkg_id T c0 (parts.map (fun x => x.id)) parts p,
           r3res T c0 parts p))) := by
  unfold runDKG
  simp only [mapE_comp]
  rw [mapE_map _ (fun q => (q, r1st dkg_id T c0 (parts.map (fun p => p.id)) q,
      r1bc env dkg_id T c0 q)) _ ?h1]
  case h1 =>
    intro q hq
    obtain ⟨c, cs, hc⟩ := List.exists_cons_of_ne_nil (hcoef q hq)
    rw [round1_spec env dkg_id T c0 (parts.map (fun p => p.id)) q c cs hc]
    rfl
  simp only [ok_bind, List.map_map]
  have hb : ((fun x : Participant × KeyGen × R1Data => x.2.2)
      ∘ (fun q => (q, r1st dkg_id T c0 (parts.map (fun p => p.id)) q,
          r1bc env dkg_id T c0 q)))
      = r1bc env dkg_id T c0 := rfl
  simp only [hb]
  simp only [mapE_comp]
  rw [mapE_map _ (fun q => (q, r2st env dkg_id T c0 (parts.map (fun p => p.id)) parts q,
      (parts.filter (fun r => r.id ≠ q.id)).map (r2msg T c0 q))) _ ?h2]
  case h2 =>
    intro q hq
    rw [round2_spec env dkg_id T c0 parts q hnd hcoef]
    rfl
  simp only [ok_bind, List.map_map]
  have hm : ((fun x : Participant × KeyGen × List R2Msg => x.2.2)
      ∘ (fun q => (q, r2st env dkg_id T c0 (parts.map (fun p => p.id)) parts q,
          (parts.filter (fun r => r.id ≠ q.id)).map (r2msg T c0 q))))
      = fun q => (parts.filter (fun r => r.id ≠ q.id)).map (r2msg T c0 q) := rfl
  simp only [hm]
  simp only [mapE_comp]
  rw [mapE_map _ (fun q => (r3st env dkg_id T c0 (parts.map (fun p => p.id)) parts q,
      r3res T c0 parts q)) _ ?h3]
  case h3 =>
    intro q hq
    have hnodeq : (r2st env dkg_id T c0 (parts.map (fun p => p.id)) parts q).node_id
        = q.id := rfl
    simp only [hnodeq]
    rw [route_inbox T c0 parts q hq hnd]
    exact round3_spec env dkg_id T c0 parts q hq hnd hcoef

end pyfrost

namespace pyfrost

/-- **C2**: for every `2 ≤ T ≤ N ≤ 20` honest participants with distinct
    identifiers, each holding a threshold-`T` polynomial (coefficient list of
    length `T`), the three-round DKG orchestration (`round1` by all, `round2`
    on the full broadcast list, `round3` on the messages addressed to each
    node) completes without error: every `round3` returns status `SUCCESSFUL`
    with session state `COMPLETED`, and all participants return the identical
    `dkg_public_key`, the sum of all constant-term commitments. -/
theorem C2_honest_dkg (env : Env) (dkg_id : String) (T : ℕ) (c0 : Option ℤ)
    (parts : List Participant)
    (hT : 2 ≤ T) (hTN : T ≤ parts.length) (hN : parts.length ≤ 20)
    (hnd : (parts.map (fun x => x.id)).Nodup)
    (hlen : ∀ q ∈ parts, (thePoly T c0 q).coefficients.length = T) :
    runDKG env dkg_id T c0 parts
      = .ok (parts.map (fun p =>
          (r3st env dkg_id T c0 (parts.map (fun x => x.id)) parts p,
           r3res T c0 parts p)))
    ∧ (∀ p ∈ parts,
        (r3st env dkg_id T c0 (parts.map (fun x => x.id)) parts p).status = "COMPLETED"
        ∧ (r3res T c0 parts p).status = "SUCCESSFUL"
        ∧ (r3res T c0 parts p).dkg_public_key = pub_to_code (dkgY T c0 parts)) := by
  have hcoef : ∀ q ∈ parts, (thePoly T c0 q).coefficients ≠ [] := by
    intro q hq hnil
    have hl := hlen q hq
    rw [hnil] at hl
    simp at hl
    omega
  exact ⟨runDKG_honest env dkg_id T c0 parts hnd hcoef, fun p _ => ⟨rfl, rfl, rfl⟩⟩

end pyfrost

/-- Witness for C2: a concrete honest two-participant DKG with threshold 2. -/
theorem C2_witness :
    (2 ≤ 2 ∧ 2 ≤ pyfrost.c2parts.length ∧ pyfrost.c2parts.length ≤ 20
      ∧ (pyfrost.c2parts.map (fun x => x.id)).Nodup
      ∧ (∀ q ∈ pyfrost.c2parts, (pyfrost.thePoly 2 none q).coefficients.length = 2))
    ∧ (pyfrost.runDKG pyfrost.env0 "dkg" 2 none pyfrost.c2parts
        = .ok (pyfrost.c2parts.map (fun p =>
            (pyfrost.r3st pyfrost.env0 "dkg" 2 none (pyfrost.c2parts.map (fun x => x.id))
              pyfrost.c2parts p,
             pyfrost.r3res 2 none pyfrost.c2parts p)))
      ∧ (∀ p ∈ pyfrost.c2parts,
          (pyfrost.r3st pyfrost.env0 "dkg" 2 none (pyfrost.c2parts.map (fun x => x.id))
            pyfrost.c2parts p).status = "COMPLETED"
          ∧ (pyfrost.r3res 2 none pyfrost.c2parts p).status = "SUCCESSFUL"
          ∧ (pyfrost.r3res 2 none pyfrost.c2parts p).dkg_public_key
              = pyfrost.pub_to_code (pyfrost.dkgY 2 none pyfrost.c2parts))) :=
  ⟨⟨by decide, by decide, by decide, by decide, by decide⟩,
    pyfrost.C2_honest_dkg pyfrost.env0 "dkg" 2 none pyfrost.c2parts
      (by decide) (by decide) (by decide) (by decide) (by decide)⟩


theorem eval_list_sum_zmod (L : List (Polynomial (ZMod Nval))) (x : ZMod Nval) :
    (L.sum).eval x = (L.map (fun p => p.eval x)).sum := by
  induction L with
  | nil => simp
  | cons a rest ih => simp [List.sum_cons, ih]

theorem degree_list_sum_lt (T : ℕ) (L : List (Polynomial (ZMod Nval)))
    (h : ∀ p ∈ L, p.degree < ((T : ℕ) : WithBot ℕ)) :
    (L.sum).degree < ((T : ℕ) : WithBot ℕ) := by
  induction L with
  | nil =>
    simp only [List.sum_nil, Polynomial.degree_zero]
    exact WithBot.bot_lt_coe T
  | cons a rest ih =>
    rw [List.sum_cons]
    apply lt_of_le_of_lt (Polynomial.degree_add_le _ _)
    exact max_lt (h a (List.mem_cons_self _ _))
      (ih (fun p hp => h p (List.mem_cons_of_mem _ hp)))

theorem evalFrom_zero_tail : ∀ (coeffs : List ℤ) (i : ℕ), 0 < i →
    pyfrost.evalFrom 0 i coeffs = 0 := by
  intro coeffs
  induction coeffs with
  | nil => intro i _; rfl
  | cons c rest ih =>
    intro i hi
    simp only [pyfrost.evalFrom]
    rw [ih (i + 1) (by omega)]
    rw [zero_pow (by omega)]
    ring

theorem evalFrom_zero_head (c : ℤ) (cs : List ℤ) : pyfrost.evalFrom 0 0 (c :: cs) = c := by
  simp only [pyfrost.evalFrom]
  rw [evalFrom_zero_tail cs 1 (by omega)]
  ring

theorem range_map_getD_sum {α M : Type} [AddCommMonoid M] (dflt : α) (h : α → M) :
    ∀ (l : List α),
    ((List.range l.length).map (fun k => h (l.getD k dflt))).sum = (l.map h).sum := by
  intro l
  induction l with
  | nil => rfl
  | cons a rest ih =>
    rw [List.length_cons, List.range_succ_eq_map, List.map_cons, List.sum_cons,
      List.map_map, List.map_cons, List.sum_cons]
    refine congrArg (fun s => h a + s) ?_
    rw [← ih]
    rfl

theorem mapE_map_idx {α β : Type} (f : α → Except String β) :
    ∀ (l : List α) (g : ℕ → β),
      (∀ k (hk : k < l.length), f (l.get ⟨k, hk⟩) = .ok (g k)) →
      pyfrost.mapE f l = .ok ((List.range l.length).map g) := by
  intro l
  induction l with
  | nil => intro g _; rfl
  | cons a rest ih =>
    intro g h
    simp only [pyfrost.mapE]
    have h0 : f a = .ok (g 0) := h 0 (by simp)
    rw [h0, pyfrost.ok_bind]
    rw [ih (fun k => g (k + 1)) (fun k hk => h (k + 1) (by simpa using hk)), pyfrost.ok_bind]
    rw [List.length_cons, List.range_succ_eq_map, List.map_cons, List.map_map]
    rfl


namespace pyfrost

theorem signFold_nomatch (env : Env) (message : String) (nl : List Nonce) (id : ℕ) :
    ∀ (l : List Nonce), (∀ n ∈ l, n.id ≠ id) → ∀ (P : Point) (r i idx : ℕ),
    l.foldl (signFoldStep env message nl id) (some P, r, i, idx)
      = (some (P + (l.map (nonceContrib env message nl)).sum), r, i, idx + l.length) := by
  intro l
  induction l with
  | nil =>
    intro _ P r i idx
    simp
  | cons n rest ih =>
    intro hno P r i idx
    rw [List.foldl_cons]
    have hstep : signFoldStep env message nl id (some P, r, i, idx) n
        = (some (P + nonceContrib env message nl n), r, i, idx + 1) := by
      simp only [signFoldStep]
      rw [if_neg (fun h => hno n (List.mem_cons_self _ _) h.symm)]
      rfl
    rw [hstep, ih (fun m hm => hno m (List.mem_cons_of_mem _ hm)) _ r i (idx + 1)]
    simp only [List.map_cons, List.sum_cons]
    refine Prod.ext (congrArg some (by ring)) (Prod.ext rfl (Prod.ext rfl ?_))
    simp only [List.length_cons]
    omega

theorem signFold_nomatch_none (env : Env) (message : String) (nl : List Nonce) (id : ℕ)
    (l : List Nonce) (hno : ∀ n ∈ l, n.id ≠ id) (hne : l ≠ []) :
    l.foldl (signFoldStep env message nl id) (none, 0, 0, 0)
      = (some ((l.map (nonceContrib env message nl)).sum), 0, 0, l.length) := by
  cases l with
  | nil => cases hne rfl
  | cons n rest =>
    rw [List.foldl_cons]
    have hstep : signFoldStep env message nl id (none, 0, 0, 0) n
        = (some (nonceContrib env message nl n), 0, 0, 1) := by
      simp only [signFoldStep]
      rw [if_neg (fun h => hno n (List.mem_cons_self _ _) h.symm)]
      rfl
    rw [hstep, signFold_nomatch env message nl id rest
      (fun m hm => hno m (List.mem_cons_of_mem _ hm)) _ 0 0 1]
    simp only [List.map_cons, List.sum_cons]
    refine Prod.ext (congrArg some (by ring)) (Prod.ext rfl (Prod.ext rfl ?_))
    simp only [List.length_cons]
    omega

theorem signFold_at (env : Env) (message : String) (nl : List Nonce) (id : ℕ)
    (pre post : List Nonce) (np : Nonce)
    (hnp : np.id = id)
    (hpre : ∀ n ∈ pre, n.id ≠ id) (hpost : ∀ n ∈ post, n.id ≠ id) :
    (pre ++ np :: post).foldl (signFoldStep env message nl id) (none, 0, 0, 0)
      = (some (((pre ++ np :: post).map (nonceContrib env message nl)).sum),
         env.row np.id message nl, pre.length, pre.length + 1 + post.length) := by
  have hsm : ∀ (P : Point) (r i idx : ℕ),
      signFoldStep env message nl id (some P, r, i, idx) np
      = (some (P + nonceContrib env message nl np),
         env.row np.id message nl, idx, idx + 1) := by
    intro P r i idx
    simp only [signFoldStep]
    rw [if_pos hnp.symm]
    rfl
  cases pre with
  | nil =>
    rw [List.nil_append, List.foldl_cons]
    have hstep : signFoldStep env message nl id (none, 0, 0, 0) np
        = (some (nonceContrib env message nl np),
           env.row np.id message nl, 0, 1) := by
      simp only [signFoldStep]
      rw [if_pos hnp.symm]
      rfl
    rw [hstep, signFold_nomatch env message nl id post hpost _ _ _ 1]
    simp only [List.map_cons, List.sum_cons, List.length_nil]
  | cons m pre' =>
    rw [List.foldl_append, signFold_nomatch_none env message nl id (m :: pre')
      hpre (by simp), List.foldl_cons, hsm, signFold_nomatch env message nl id post hpost]
    simp only [List.map_append, List.map_cons, List.sum_append, List.sum_cons]
    exact Prod.ext (congrArg some (by ring)) (Prod.ext rfl (Prod.ext rfl rfl))

theorem foldl_opt_add {α : Type} (g : α → Point) (f : Option Point → α → Option Point)
    (hf : ∀ P a, f (some P) a = some (P + g a)) :
    ∀ (l : List α) (P : Point), l.foldl f (some P) = some (P + (l.map g).sum) := by
  intro l
  induction l with
  | nil => intro P; simp
  | cons a rest ih =>
    intro P
    rw [List.foldl_cons, hf, ih]
    simp [List.sum_cons, add_assoc]

theorem aggregate_nonce_ok (env : Env) (message : String) (l : List Nonce) (hne : l ≠ []) :
    aggregate_nonce env message l = .ok ((l.map (nonceContrib env message l)).sum) := by
  cases l with
  | nil => cases hne rfl
  | cons n rest =>
    simp only [aggregate_nonce, List.foldl_cons]
    rw [foldl_opt_add (nonceContrib env message (n :: rest)) _ ?hf rest _]
    case hf =>
      intro P a
      rfl
    simp [List.sum_cons, nonceContrib]

end pyfrost

namespace pyfrost

theorem single_sign_honest (env : Env) (message : String) (T : ℕ) (c0 : Option ℤ)
    (parts : List Participant) (d e : Participant → ℤ)
    (spre spost : List Participant) (p : Participant)
    (hpre : ∀ q ∈ spre, q.id ≠ p.id) (hpost : ∀ q ∈ spost, q.id ≠ p.id) :
    single_sign env p.id (dkgShare T c0 parts p) (d p) (e p) message
      ((spre ++ p :: spost).map (signNonce d e))
      (pub_to_code (pub_to_code (dkgY T c0 parts))) "ETH"
    = .ok { id := p.id,
            signature := eth_generate_signature_share (dkgShare T c0 parts p)
              (langrange_coef spre.length ((spre ++ p :: spost).map (signNonce d e)).length
                (((spre ++ p :: spost).map (signNonce d e)).map (fun n => n.id)) 0)
              (env.eth_challenge (dkgY T c0 parts) message
                ((((spre ++ p :: spost).map (signNonce d e)).map
                  (nonceContrib env message ((spre ++ p :: spost).map (signNonce d e)))).sum))
              (d p) (e p)
              (env.row p.id message ((spre ++ p :: spost).map (signNonce d e))),
            public_key := pub_to_code ((dkgShare T c0 parts p : ZMod Nval) * G),
            aggregated_public_nonce := pub_to_code
              ((((spre ++ p :: spost).map (signNonce d e)).map
                (nonceContrib env message ((spre ++ p :: spost).map (signNonce d e)))).sum),
            key_type := "ETH" } := by
  have hdecomp : (spre ++ p :: spost).map (signNonce d e)
      = (spre.map (signNonce d e)) ++ (signNonce d e p) :: (spost.map (signNonce d e)) := by
    rw [List.map_append, List.map_cons]
  have hfold := signFold_at env message ((spre ++ p :: spost).map (signNonce d e)) p.id
    (spre.map (signNonce d e)) (spost.map (signNonce d e)) (signNonce d e p)
    rfl
    (by
      intro n hn
      obtain ⟨q, hq, rfl⟩ := List.mem_map.mp hn
      exact fun h => hpre q hq h)
    (by
      intro n hn
      obtain ⟨q, hq, rfl⟩ := List.mem_map.mp hn
      exact fun h => hpost q hq h)
  rw [← hdecomp] at hfold
  have hrow : (signNonce d e p).id = p.id := rfl
  rw [hrow, List.length_map] at hfold
  unfold single_sign
  rw [hfold]
  rfl

end pyfrost

theorem dkgShare_cast (T : ℕ) (c0 : Option ℤ) (parts : List pyfrost.Participant) (p : pyfrost.Participant)
    (hp : p ∈ parts) (hpnd : (parts.map (fun x => x.id)).Nodup) :
    ((pyfrost.dkgShare T c0 parts p : ℤ) : ZMod Nval)
      = ((parts.map (fun q =>
            ∑ i ∈ Finset.range (pyfrost.thePoly T c0 q).coefficients.length,
              Polynomial.C (((pyfrost.thePoly T c0 q).coefficients.getD i 0 : ℤ) : ZMod Nval)
                * Polynomial.X ^ i)).sum).eval ((p.id : ℕ) : ZMod Nval) := by
  have hsplit := pyfrost.sum_map_split
    (fun q => (pyfrost.thePoly T c0 q).evaluate ((p.id : ℕ) : ℤ)) parts p hp hpnd
  have hdkg : pyfrost.dkgShare T c0 parts p
      = (parts.map (fun q => (pyfrost.thePoly T c0 q).evaluate ((p.id : ℕ) : ℤ))).sum := by
    rw [hsplit]
    rfl
  rw [hdkg, Int.cast_list_sum, List.map_map, eval_list_sum_zmod, List.map_map]
  refine congrArg List.sum (List.map_congr_left ?_)
  intro q hq
  show ((pyfrost.Polynomial.evaluate (pyfrost.thePoly T c0 q) ((p.id : ℕ) : ℤ) : ℤ) : ZMod Nval)
    = _
  rw [show pyfrost.Polynomial.evaluate (pyfrost.thePoly T c0 q) ((p.id : ℕ) : ℤ)
      = pyfrost.evalFrom ((p.id : ℕ) : ℤ) 0 (pyfrost.thePoly T c0 q).coefficients from rfl]
  rw [evalFrom_cast]
  push_cast
  rfl

theorem lagrange_share_sum (T : ℕ) (c0 : Option ℤ)
    (parts signers : List pyfrost.Participant)
    (hT0 : 0 < T) (hsT : signers.length = T)
    (hlen : ∀ q ∈ parts, (pyfrost.thePoly T c0 q).coefficients.length = T)
    (hsub : ∀ q ∈ signers, q ∈ parts)
    (hpnd : (parts.map (fun x => x.id)).Nodup)
    (hsnd : (signers.map (fun x => x.id)).Nodup)
    (hidlt : ∀ q ∈ signers, q.id < Nval) :
    ∑ k ∈ Finset.range signers.length,
      ((pyfrost.langrange_coef k signers.length (signers.map (fun x => x.id)) 0 : ℤ) : ZMod Nval)
        * ((pyfrost.dkgShare T c0 parts (signers.getD k ⟨0, 0, 0, 0, []⟩) : ℤ) : ZMod Nval)
      = (((parts.map (fun q =>
            (pyfrost.thePoly T c0 q).coefficients.headI)).sum : ℤ) : ZMod Nval) := by
  set ids : List ℕ := signers.map (fun x => x.id) with hids
  have hidslen : ids.length = signers.length := by
    rw [hids, List.length_map]
  have hid_mem : ∀ j, j < signers.length →
      ids.getD j 0 = (signers.getD j ⟨0, 0, 0, 0, []⟩).id := by
    intro j hj
    rw [getD_eq_getElem' ids 0 j (by omega),
      getD_eq_getElem' signers ⟨0, 0, 0, 0, []⟩ j (by omega)]
    simp [hids]
  have hid_bound : ∀ j, j < signers.length → ids.getD j 0 < Nval := by
    intro j hj
    have h1 : ids.getD j 0 = (signers.get ⟨j, by omega⟩).id := by
      rw [getD_eq_getElem' ids 0 j (by omega)]
      simp [hids]
    rw [h1]
    exact hidlt _ (List.getElem_mem _)
  have hinj : Set.InjOn (fun k => ((ids.getD k 0 : ℕ) : ZMod Nval))
      (Finset.range signers.length) := by
    intro a ha b hb heq
    simp only [Finset.coe_range, Set.mem_Iio] at ha hb
    have ha' := hid_bound a ha
    have hb' := hid_bound b hb
    simp only at heq
    have hmod := (ZMod.natCast_eq_natCast_iff' _ _ _).1 heq
    rw [Nat.mod_eq_of_lt ha', Nat.mod_eq_of_lt hb'] at hmod
    have hga : ids.getD a 0 = ids.get ⟨a, by omega⟩ := getD_eq_getElem' _ _ _ (by omega)
    have hgb : ids.getD b 0 = ids.get ⟨b, by omega⟩ := getD_eq_getElem' _ _ _ (by omega)
    rw [hga, hgb] at hmod
    have hfin : (⟨a, by omega⟩ : Fin ids.length) = ⟨b, by omega⟩ :=
      List.nodup_iff_injective_getElem.mp hsnd (by simpa using hmod)
    simpa using congrArg Fin.val hfin
  have hterm : ∀ j ∈ Finset.range signers.length,
      ((pyfrost.langrange_coef j signers.length ids 0 : ℤ) : ZMod Nval)
        * ((pyfrost.dkgShare T c0 parts (signers.getD j ⟨0, 0, 0, 0, []⟩) : ℤ) : ZMod Nval)
      = ((∏ k ∈ (Finset.range signers.length).erase j,
            (((ids.getD j 0 : ℕ) : ZMod Nval) - ((ids.getD k 0 : ℕ) : ZMod Nval))⁻¹)
          * (∏ k ∈ (Finset.range signers.length).erase j,
            (((0 : ℤ) : ZMod Nval) - ((ids.getD k 0 : ℕ) : ZMod Nval))))
        * Polynomial.eval (((ids.getD j 0 : ℕ) : ZMod Nval))
            ((parts.map (fun q =>
              ∑ i ∈ Finset.range (pyfrost.thePoly T c0 q).coefficients.length,
                Polynomial.C (((pyfrost.thePoly T c0 q).coefficients.getD i 0 : ℤ) : ZMod Nval)
                  * Polynomial.X ^ i)).sum) := by
    intro j hj
    have hjT : j < signers.length := Finset.mem_range.mp hj
    rw [langrange_coef_cast j signers.length ids 0 hjT hinj]
    have hmem : signers.getD j ⟨0, 0, 0, 0, []⟩ ∈ signers := by
      rw [getD_eq_getElem' signers ⟨0, 0, 0, 0, []⟩ j (by omega)]
      exact List.getElem_mem _
    rw [dkgShare_cast T c0 parts _ (hsub _ hmem) hpnd]
    rw [hid_mem j hjT]
  rw [Finset.sum_congr rfl hterm]
  rw [lagrange_eval_sum signers.length (fun k => ((ids.getD k 0 : ℕ) : ZMod Nval))
    hinj _ ?deg (((0 : ℤ) : ZMod Nval))]
  case deg =>
    refine degree_list_sum_lt _ _ ?_
    intro pq hpq
    obtain ⟨q, hq, rfl⟩ := List.mem_map.mp hpq
    have hdg := degree_sum_C_mul_X_lt (pyfrost.thePoly T c0 q).coefficients.length
      (fun i => (((pyfrost.thePoly T c0 q).coefficients.getD i 0 : ℤ) : ZMod Nval))
    have hTeq : (((pyfrost.thePoly T c0 q).coefficients.length : ℕ) : WithBot ℕ)
        = ((signers.length : ℕ) : WithBot ℕ) := by
      rw [hlen q hq, hsT]
    rw [← hTeq]
    exact hdg
  rw [eval_list_sum_zmod, Int.cast_list_sum, List.map_map, List.map_map]
  refine congrArg List.sum (List.map_congr_left ?_)
  intro q hq
  show Polynomial.eval (((0 : ℤ) : ZMod Nval)) _
    = (((pyfrost.thePoly T c0 q).coefficients.headI : ℤ) : ZMod Nval)
  rw [← evalFrom_cast (pyfrost.thePoly T c0 q).coefficients 0]
  have hne : (pyfrost.thePoly T c0 q).coefficients ≠ [] := by
    intro hnil
    have hl := hlen q hq
    rw [hnil] at hl
    simp at hl
    omega
  obtain ⟨cc, cs, hc⟩ := List.exists_cons_of_ne_nil hne
  rw [hc, evalFrom_zero_head]
  rfl

theorem cast_sum_range (n : ℕ) (f : ℕ → ℤ) :
    ((((List.range n).map f).sum : ℤ) : ZMod Nval)
      = ∑ k ∈ Finset.range n, ((f k : ℤ) : ZMod Nval) := by
  rw [Int.cast_list_sum, List.map_map, list_range_sum]
  rfl

theorem sign_sum_cast (env : pyfrost.Env) (message : String) (T : ℕ) (c0 : Option ℤ)
    (parts signers : List pyfrost.Participant) (d e : pyfrost.Participant → ℤ) (c : ℕ)
    (hT0 : 0 < T) (hsT : signers.length = T)
    (hlen : ∀ q ∈ parts, (pyfrost.thePoly T c0 q).coefficients.length = T)
    (hsub : ∀ q ∈ signers, q ∈ parts)
    (hpnd : (parts.map (fun x => x.id)).Nodup)
    (hsnd : (signers.map (fun x => x.id)).Nodup)
    (hidlt : ∀ q ∈ signers, q.id < Nval) :
    (((((List.range signers.length).map (fun k =>
        pyfrost.eth_generate_signature_share
          (pyfrost.dkgShare T c0 parts (signers.getD k ⟨0, 0, 0, 0, []⟩))
          (pyfrost.langrange_coef k signers.length (signers.map (fun x => x.id)) 0)
          c
          (d (signers.getD k ⟨0, 0, 0, 0, []⟩))
          (e (signers.getD k ⟨0, 0, 0, 0, []⟩))
          (env.row (signers.getD k ⟨0, 0, 0, 0, []⟩).id message
            (signers.map (pyfrost.signNonce d e))))).sum).emod (Nval : ℤ) : ℤ) : ZMod Nval)
        * pyfrost.G
      + (c : ZMod Nval) * pyfrost.dkgY T c0 parts
    = ((signers.map (pyfrost.signNonce d e)).map
        (pyfrost.nonceContrib env message (signers.map (pyfrost.signNonce d e)))).sum := by
  have h1 : (((((List.range signers.length).map (fun k =>
        pyfrost.eth_generate_signature_share
          (pyfrost.dkgShare T c0 parts (signers.getD k ⟨0, 0, 0, 0, []⟩))
          (pyfrost.langrange_coef k signers.length (signers.map (fun x => x.id)) 0)
          c
          (d (signers.getD k ⟨0, 0, 0, 0, []⟩))
          (e (signers.getD k ⟨0, 0, 0, 0, []⟩))
          (env.row (signers.getD k ⟨0, 0, 0, 0, []⟩).id message
            (signers.map (pyfrost.signNonce d e))))).sum).emod (Nval : ℤ) : ℤ) : ZMod Nval)
      = (((signers.map (fun q =>
            (env.row q.id message (signers.map (pyfrost.signNonce d e)) : ℤ) * e q
              + d q)).sum : ℤ) : ZMod Nval)
        - (c : ZMod Nval)
          * (((parts.map (fun q =>
              (pyfrost.thePoly T c0 q).coefficients.headI)).sum : ℤ) : ZMod Nval) := by
    rw [pyfrost.intCast_emod, cast_sum_range]
    have hz : ∀ k ∈ Finset.range signers.length,
        ((pyfrost.eth_generate_signature_share
          (pyfrost.dkgShare T c0 parts (signers.getD k ⟨0, 0, 0, 0, []⟩))
          (pyfrost.langrange_coef k signers.length (signers.map (fun x => x.id)) 0)
          c
          (d (signers.getD k ⟨0, 0, 0, 0, []⟩))
          (e (signers.getD k ⟨0, 0, 0, 0, []⟩))
          (env.row (signers.getD k ⟨0, 0, 0, 0, []⟩).id message
            (signers.map (pyfrost.signNonce d e))) : ℤ) : ZMod Nval)
        = (((env.row (signers.getD k ⟨0, 0, 0, 0, []⟩).id message
              (signers.map (pyfrost.signNonce d e)) : ℤ)
            * e (signers.getD k ⟨0, 0, 0, 0, []⟩)
            + d (signers.getD k ⟨0, 0, 0, 0, []⟩) : ℤ) : ZMod Nval)
          - ((pyfrost.langrange_coef k signers.length (signers.map (fun x => x.id)) 0 : ℤ)
              : ZMod Nval)
            * (c : ZMod Nval)
            * ((pyfrost.dkgShare T c0 parts (signers.getD k ⟨0, 0, 0, 0, []⟩) : ℤ)
              : ZMod Nval) := by
      intro k hk
      unfold pyfrost.eth_generate_signature_share
      rw [pyfrost.intCast_emod]
      push_cast
      ring
    rw [Finset.sum_congr rfl hz, Finset.sum_sub_distrib]
    have hA : ∑ k ∈ Finset.range signers.length,
        (((env.row (signers.getD k ⟨0, 0, 0, 0, []⟩).id message
            (signers.map (pyfrost.signNonce d e)) : ℤ)
          * e (signers.getD k ⟨0, 0, 0, 0, []⟩)
          + d (signers.getD k ⟨0, 0, 0, 0, []⟩) : ℤ) : ZMod Nval)
        = (((signers.map (fun q =>
            (env.row q.id message (signers.map (pyfrost.signNonce d e)) : ℤ) * e q
              + d q)).sum : ℤ) : ZMod Nval) := by
      rw [← cast_sum_range signers.length (fun k =>
        (env.row (signers.getD k ⟨0, 0, 0, 0, []⟩).id message
            (signers.map (pyfrost.signNonce d e)) : ℤ)
          * e (signers.getD k ⟨0, 0, 0, 0, []⟩)
          + d (signers.getD k ⟨0, 0, 0, 0, []⟩))]
      rw [range_map_getD_sum (⟨0, 0, 0, 0, []⟩ : pyfrost.Participant)
        (fun q => (env.row q.id message (signers.map (pyfrost.signNonce d e)) : ℤ) * e q + d q)
        signers]
    have hB : ∑ k ∈ Finset.range signers.length,
        ((pyfrost.langrange_coef k signers.length (signers.map (fun x => x.id)) 0 : ℤ)
            : ZMod Nval)
          * (c : ZMod Nval)
          * ((pyfrost.dkgShare T c0 parts (signers.getD k ⟨0, 0, 0, 0, []⟩) : ℤ) : ZMod Nval)
        = (c : ZMod Nval)
          * (((parts.map (fun q =>
              (pyfrost.thePoly T c0 q).coefficients.headI)).sum : ℤ) : ZMod Nval) := by
      have hcomm : ∀ k ∈ Finset.range signers.length,
          ((pyfrost.langrange_coef k signers.length (signers.map (fun x => x.id)) 0 : ℤ)
              : ZMod Nval)
            * (c : ZMod Nval)
            * ((pyfrost.dkgShare T c0 parts (signers.getD k ⟨0, 0, 0, 0, []⟩) : ℤ) : ZMod Nval)
          = (c : ZMod Nval)
            * (((pyfrost.langrange_coef k signers.length (signers.map (fun x => x.id)) 0 : ℤ)
                : ZMod Nval)
              * ((pyfrost.dkgShare T c0 parts (signers.getD k ⟨0, 0, 0, 0, []⟩) : ℤ)
                : ZMod Nval)) := by
        intro k hk
        ring
      rw [Finset.sum_congr rfl hcomm, ← Finset.mul_sum]
      rw [lagrange_share_sum T c0 parts signers hT0 hsT hlen hsub hpnd hsnd hidlt]
    rw [hA, hB]
  rw [h1]
  have h3 : ((signers.map (pyfrost.signNonce d e)).map
        (pyfrost.nonceContrib env message (signers.map (pyfrost.signNonce d e)))).sum
      = (((signers.map (fun q =>
            (env.row q.id message (signers.map (pyfrost.signNonce d e)) : ℤ) * e q
              + d q)).sum : ℤ) : ZMod Nval) * pyfrost.G := by
    rw [List.map_map]
    rw [← pyfrost.sum_map_mul_G (fun q =>
      (env.row q.id message (signers.map (pyfrost.signNonce d e)) : ℤ) * e q + d q) signers]
    refine congrArg List.sum (List.map_congr_left ?_)
    intro q hq
    show pyfrost.nonceContrib env message (signers.map (pyfrost.signNonce d e))
        (pyfrost.signNonce d e q) = _
    unfold pyfrost.nonceContrib pyfrost.signNonce pyfrost.code_to_pub pyfrost.pub_to_code
    push_cast
    ring
  rw [h3]
  show _ = _
  have h2 : pyfrost.dkgY T c0 parts
      = (((parts.map (fun q =>
          (pyfrost.thePoly T c0 q).coefficients.headI)).sum : ℤ) : ZMod Nval) * pyfrost.G := rfl
  rw [h2]
  ring

theorem keysign_at (env : pyfrost.Env) (message : String) (T : ℕ) (c0 : Option ℤ)
    (parts signers : List pyfrost.Participant) (d e : pyfrost.Participant → ℤ)
    (hsnd : (signers.map (fun x => x.id)).Nodup)
    (k : ℕ) (hk : k < signers.length) :
    pyfrost.Key.sign env
      { dkg_key_pair := (pyfrost.r3res T c0 parts (signers.getD k ⟨0, 0, 0, 0, []⟩)).dkg_key_pair,
        node_id := (signers.getD k ⟨0, 0, 0, 0, []⟩).id, key_type := "ETH" }
      (signers.map (pyfrost.signNonce d e)) message
      (d (signers.getD k ⟨0, 0, 0, 0, []⟩)) (e (signers.getD k ⟨0, 0, 0, 0, []⟩))
    = .ok { id := (signers.getD k ⟨0, 0, 0, 0, []⟩).id,
            signature := pyfrost.eth_generate_signature_share
              (pyfrost.dkgShare T c0 parts (signers.getD k ⟨0, 0, 0, 0, []⟩))
              (pyfrost.langrange_coef k ((signers.map (pyfrost.signNonce d e)).length)
                ((signers.map (pyfrost.signNonce d e)).map (fun n => n.id)) 0)
              (env.eth_challenge (pyfrost.dkgY T c0 parts) message
                (((signers.map (pyfrost.signNonce d e)).map
                  (pyfrost.nonceContrib env message
                    (signers.map (pyfrost.signNonce d e)))).sum))
              (d (signers.getD k ⟨0, 0, 0, 0, []⟩)) (e (signers.getD k ⟨0, 0, 0, 0, []⟩))
              (env.row (signers.getD k ⟨0, 0, 0, 0, []⟩).id message
                (signers.map (pyfrost.signNonce d e))),
            public_key := pyfrost.pub_to_code
              ((pyfrost.dkgShare T c0 parts (signers.getD k ⟨0, 0, 0, 0, []⟩) : ZMod Nval)
                * pyfrost.G),
            aggregated_public_nonce := pyfrost.pub_to_code
              (((signers.map (pyfrost.signNonce d e)).map
                (pyfrost.nonceContrib env message
                  (signers.map (pyfrost.signNonce d e)))).sum),
            key_type := "ETH" } := by
  have hget : signers.getD k ⟨0, 0, 0, 0, []⟩ = signers.get ⟨k, hk⟩ := by
    rw [getD_eq_getElem' signers ⟨0, 0, 0, 0, []⟩ k hk]
    rfl
  rw [hget]
  have hdec : signers = signers.take k ++ signers.get ⟨k, hk⟩ :: signers.drop (k + 1) := by
    conv_lhs => rw [← List.take_append_drop k signers]
    rw [List.drop_eq_get_cons hk]
  have hidsdec : signers.map (fun x => x.id)
      = (signers.take k).map (fun x => x.id)
        ++ (signers.get ⟨k, hk⟩).id :: (signers.drop (k + 1)).map (fun x => x.id) := by
    conv_lhs => rw [hdec]
    rw [List.map_append, List.map_cons]
  have hnd2 := hsnd
  rw [hidsdec, List.nodup_append] at hnd2
  obtain ⟨hndA, hndB, hdisj⟩ := hnd2
  rw [List.nodup_cons] at hndB
  have hpre : ∀ q ∈ signers.take k, q.id ≠ (signers.get ⟨k, hk⟩).id := by
    intro q hq heq
    exact hdisj (List.mem_map_of_mem _ hq) (by rw [heq]; exact List.mem_cons_self _ _)
  have hpost : ∀ q ∈ signers.drop (k + 1), q.id ≠ (signers.get ⟨k, hk⟩).id := by
    intro q hq heq
    exact hndB.1 (by rw [← heq]; exact List.mem_map_of_mem _ hq)
  have h := pyfrost.single_sign_honest env message T c0 parts d e
    (signers.take k) (signers.drop (k + 1)) (signers.get ⟨k, hk⟩) hpre hpost
  rw [← hdec, List.length_take, min_eq_left (le_of_lt hk)] at h
  exact h

/-- **C1**: after an honest DKG among `parts` (per-participant share
    `dkgShare`, group key `dkgY`, the key pair stored by `round3`), every
    subset `signers` of exactly `T` participants with distinct identifiers
    below the group order that each call `Key.sign` / `single_sign` on the
    same message and the same commitments dict (one fresh nonce pair per
    signer, as published by `create_nonces`) produces signature shares whose
    `aggregate_signatures` (with the nonce from `aggregate_nonce`) passes
    `verify_group_signature`.  The ETH share and verification formulas are
    modelled from the spec (§4.4): `eth_utils.py` is imported by `frost.py`
    but is not among the sources. -/
theorem C1_sign_verify (env : pyfrost.Env) (message : String) (T : ℕ) (c0 : Option ℤ)
    (parts signers : List pyfrost.Participant) (d e : pyfrost.Participant → ℤ)
    (hT2 : 2 ≤ T) (hsT : signers.length = T)
    (hlen : ∀ q ∈ parts, (pyfrost.thePoly T c0 q).coefficients.length = T)
    (hsub : ∀ q ∈ signers, q ∈ parts)
    (hpnd : (parts.map (fun x => x.id)).Nodup)
    (hsnd : (signers.map (fun x => x.id)).Nodup)
    (hidlt : ∀ q ∈ signers, q.id < Nval) :
    (∀ p ∈ signers, (pyfrost.create_nonces p.id [(d p, e p)]).1 = [pyfrost.signNonce d e p])
    ∧ ∃ (R : pyfrost.Point) (sigs : List pyfrost.SignResult),
      pyfrost.aggregate_nonce env message (signers.map (pyfrost.signNonce d e)) = .ok R
      ∧ pyfrost.mapE (fun p => pyfrost.Key.sign env
            { dkg_key_pair := (pyfrost.r3res T c0 parts p).dkg_key_pair,
              node_id := p.id, key_type := "ETH" }
            (signers.map (pyfrost.signNonce d e)) message (d p) (e p)) signers
        = .ok sigs
      ∧ pyfrost.verify_group_signature env
          (pyfrost.aggregate_signatures env message sigs R
            (pyfrost.pub_to_code (pyfrost.pub_to_code (pyfrost.dkgY T c0 parts))) "ETH")
        = .ok true := by
  refine ⟨fun p _ => rfl, ?_⟩
  refine ⟨((signers.map (pyfrost.signNonce d e)).map
      (pyfrost.nonceContrib env message (signers.map (pyfrost.signNonce d e)))).sum,
    (List.range signers.length).map (fun k =>
      { id := (signers.getD k ⟨0, 0, 0, 0, []⟩).id,
        signature := pyfrost.eth_generate_signature_share
          (pyfrost.dkgShare T c0 parts (signers.getD k ⟨0, 0, 0, 0, []⟩))
          (pyfrost.langrange_coef k ((signers.map (pyfrost.signNonce d e)).length)
            ((signers.map (pyfrost.signNonce d e)).map (fun n => n.id)) 0)
          (env.eth_challenge (pyfrost.dkgY T c0 parts) message
            (((signers.map (pyfrost.signNonce d e)).map
              (pyfrost.nonceContrib env message
                (signers.map (pyfrost.signNonce d e)))).sum))
          (d (signers.getD k ⟨0, 0, 0, 0, []⟩)) (e (signers.getD k ⟨0, 0, 0, 0, []⟩))
          (env.row (signers.getD k ⟨0, 0, 0, 0, []⟩).id message
            (signers.map (pyfrost.signNonce d e))),
        public_key := pyfrost.pub_to_code
          ((pyfrost.dkgShare T c0 parts (signers.getD k ⟨0, 0, 0, 0, []⟩) : ZMod Nval)
            * pyfrost.G),
        aggregated_public_nonce := pyfrost.pub_to_code
          (((signers.map (pyfrost.signNonce d e)).map
            (pyfrost.nonceContrib env message
              (signers.map (pyfrost.signNonce d e)))).sum),
        key_type := "ETH" }),
    pyfrost.aggregate_nonce_ok env message _ ?hne, ?hsigs, ?hver⟩
  case hne =>
    intro h
    have hlen0 : signers.length = 0 := by
      have h2 := congrArg List.length h
      simpa using h2
    omega
  case hsigs =>
    refine mapE_map_idx _ signers _ ?_
    intro k hk
    have hget : signers.get ⟨k, hk⟩ = signers.getD k ⟨0, 0, 0, 0, []⟩ := by
      rw [getD_eq_getElem' signers ⟨0, 0, 0, 0, []⟩ k hk]
      rfl
    rw [hget]
    exact keysign_at env message T c0 parts signers d e hsnd k hk
  case hver =>
    have hmm : (((List.range signers.length).map (fun k =>
        ({ id := (signers.getD k ⟨0, 0, 0, 0, []⟩).id,
           signature := pyfrost.eth_generate_signature_share
             (pyfrost.dkgShare T c0 parts (signers.getD k ⟨0, 0, 0, 0, []⟩))
             (pyfrost.langrange_coef k ((signers.map (pyfrost.signNonce d e)).length)
               ((signers.map (pyfrost.signNonce d e)).map (fun n => n.id)) 0)
             (env.eth_challenge (pyfrost.dkgY T c0 parts) message
               (((signers.map (pyfrost.signNonce d e)).map
                 (pyfrost.nonceContrib env message
                   (signers.map (pyfrost.signNonce d e)))).sum))
             (d (signers.getD k ⟨0, 0, 0, 0, []⟩)) (e (signers.getD k ⟨0, 0, 0, 0, []⟩))
             (env.row (signers.getD k ⟨0, 0, 0, 0, []⟩).id message
               (signers.map (pyfrost.signNonce d e))),
           public_key := pyfrost.pub_to_code
             ((pyfrost.dkgShare T c0 parts (signers.getD k ⟨0, 0, 0, 0, []⟩) : ZMod Nval)
               * pyfrost.G),
           aggregated_public_nonce := pyfrost.pub_to_code
             (((signers.map (pyfrost.signNonce d e)).map
               (pyfrost.nonceContrib env message
                 (signers.map (pyfrost.signNonce d e)))).sum),
           key_type := "ETH" } : pyfrost.SignResult))).map
        (fun s => s.signature))
        = (List.range signers.length).map (fun k =>
          pyfrost.eth_generate_signature_share
            (pyfrost.dkgShare T c0 parts (signers.getD k ⟨0, 0, 0, 0, []⟩))
            (pyfrost.langrange_coef k ((signers.map (pyfrost.signNonce d e)).length)
              ((signers.map (pyfrost.signNonce d e)).map (fun n => n.id)) 0)
            (env.eth_challenge (pyfrost.dkgY T c0 parts) message
              (((signers.map (pyfrost.signNonce d e)).map
                (pyfrost.nonceContrib env message
                  (signers.map (pyfrost.signNonce d e)))).sum))
            (d (signers.getD k ⟨0, 0, 0, 0, []⟩)) (e (signers.getD k ⟨0, 0, 0, 0, []⟩))
            (env.row (signers.getD k ⟨0, 0, 0, 0, []⟩).id message
              (signers.map (pyfrost.signNonce d e)))) := by
      rw [List.map_map]
      rfl
    simp only [pyfrost.verify_group_signature, pyfrost.aggregate_signatures,
      pyfrost.eth_verify_group_sign]
    rw [if_true, hmm]
    have hlm : ((signers.map (pyfrost.signNonce d e)).map (fun n => n.id)).length
        = signers.length := by
      rw [List.length_map, List.length_map]
    have hnlen : (signers.map (pyfrost.signNonce d e)).length = signers.length :=
      List.length_map _ _
    rw [hnlen]
    have hkey := sign_sum_cast env message T c0 parts signers d e
      (env.eth_challenge (pyfrost.dkgY T c0 parts) message
        (((signers.map (pyfrost.signNonce d e)).map
          (pyfrost.nonceContrib env message
            (signers.map (pyfrost.signNonce d e)))).sum))
      (by omega) hsT hlen hsub hpnd hsnd hidlt
    have hids2 : (signers.map (pyfrost.signNonce d e)).map (fun n => n.id)
        = signers.map (fun x => x.id) := by
      rw [List.map_map]
      rfl
    rw [hids2]
    have hY2 : pyfrost.pub_decompress (pyfrost.pub_compress (pyfrost.code_to_pub
        (pyfrost.pub_to_code (pyfrost.pub_to_code (pyfrost.dkgY T c0 parts)))))
        = pyfrost.dkgY T c0 parts := rfl
    have hY1 : pyfrost.pub_compress (pyfrost.code_to_pub
        (pyfrost.pub_to_code (pyfrost.pub_to_code (pyfrost.dkgY T c0 parts))))
        = pyfrost.dkgY T c0 parts := rfl
    have hR1 : pyfrost.pub_decompress (pyfrost.pub_compress
        (((signers.map (pyfrost.signNonce d e)).map
          (pyfrost.nonceContrib env message
            (signers.map (pyfrost.signNonce d e)))).sum))
        = ((signers.map (pyfrost.signNonce d e)).map
            (pyfrost.nonceContrib env message
              (signers.map (pyfrost.signNonce d e)))).sum := rfl
    have hY3 : pyfrost.pub_decompress (pyfrost.dkgY T c0 parts)
        = pyfrost.dkgY T c0 parts := rfl
    simp only [hY2, hY1, hY3, hR1]
    rw [hkey]
    simp

/-- Witness for C1: the two participants of the concrete honest DKG sign the
    message `"msg"` with threshold 2 and the group signature verifies. -/
theorem C1_witness :
    (2 ≤ 2 ∧ pyfrost.c2parts.length = 2
      ∧ (∀ q ∈ pyfrost.c2parts, (pyfrost.thePoly 2 none q).coefficients.length = 2)
      ∧ (pyfrost.c2parts.map (fun x => x.id)).Nodup
      ∧ (∀ q ∈ pyfrost.c2parts, q.id < Nval))
    ∧ ((∀ p ∈ pyfrost.c2parts,
        (pyfrost.create_nonces p.id
          [(p.secret_nonce, p.coef0_nonce)]).1
        = [pyfrost.signNonce (fun q => q.secret_nonce) (fun q => q.coef0_nonce) p])
      ∧ ∃ (R : pyfrost.Point) (sigs : List pyfrost.SignResult),
        pyfrost.aggregate_nonce pyfrost.env0 "msg"
            (pyfrost.c2parts.map (pyfrost.signNonce (fun q => q.secret_nonce)
              (fun q => q.coef0_nonce)))
          = .ok R
        ∧ pyfrost.mapE (fun p => pyfrost.Key.sign pyfrost.env0
              { dkg_key_pair := (pyfrost.r3res 2 none pyfrost.c2parts p).dkg_key_pair,
                node_id := p.id, key_type := "ETH" }
              (pyfrost.c2parts.map (pyfrost.signNonce (fun q => q.secret_nonce)
                (fun q => q.coef0_nonce)))
              "msg" p.secret_nonce p.coef0_nonce) pyfrost.c2parts
          = .ok sigs
        ∧ pyfrost.verify_group_signature pyfrost.env0
            (pyfrost.aggregate_signatures pyfrost.env0 "msg" sigs R
              (pyfrost.pub_to_code (pyfrost.pub_to_code
                (pyfrost.dkgY 2 none pyfrost.c2parts))) "ETH")
          = .ok true) :=
  ⟨⟨by decide, by decide, by decide, by decide, by decide⟩,
    C1_sign_verify pyfrost.env0 "msg" 2 none pyfrost.c2parts pyfrost.c2parts
      (fun q => q.secret_nonce) (fun q => q.coef0_nonce)
      (by decide) (by decide) (by decide) (fun q hq => hq)
      (by decide) (by decide) (by decide)⟩
